import Mathlib

/-!
# MetaBits: the type-list algebra of `type_lists.hpp`

The program is a C++20 template metaprogram.  Its data are C++ *types*; its
functions are class templates whose partial specialisations are chosen by the
concepts `TypeSequence`, `Empty` and `TypeList`.  The embedding therefore has

* `Ty`      : the C++ types the library can name (one constructor per struct template),
* `Shape`   : what instantiating a type exposes (derived from `Nil`, or `Head`/`Tail`, ...),
* `viewCons`, `viewTake`, ... : the instantiation of one struct template, one match arm
  per partial specialisation, and `view`, which dispatches on the template,
* `ToTuple`, `FoldlHelper` : the two metafunctions that walk a whole list.

Conventions of the embedding, all of them rules of the language rather than of the library:

* a partial specialisation is used when it is the only match or is more constrained
  than every other match; two matches of which neither is more constrained make the
  instantiation ill-formed (`Shape.error`); no match leaves the primary template, which
  for the helpers is declared but not defined (`Shape.incomplete`);
* a member `using Tail = X<...>` names a template-id, and the constraints of `X` on its
  arguments are checked when the enclosing class is instantiated (`named`); the class
  `X<...>` itself is not instantiated until it is observed;
* template instantiation need not terminate (`Filter` over an infinite list), so
  `view` carries a fuel argument and returns `none` when it runs out.

Two run-time utilities of the repository are embedded as ordinary functions:
`polymapper.PolymorphicMapper.map` (`PolymorphicMapper.hpp`) and, in `slice`, the views
`Slice` and `SliceIterator` (`Slice.hpp`), where pointers are positions counted in
elements, `std::size_t` arithmetic is modulo `2 ^ 64` and undefined behaviour is `none`.
-/

namespace polymapper

/-- `template <typename From, auto target> struct Mapping`: `Base` is the class `From`
and `Target()` returns the tag `target`. -/
structure Mapping (Kind Target : Type) where
  Base : Kind
  Target : Target

/-- `PolymorphicMapper<Base, Target, Mappings...>::map(const Base& base)`.  With no
mappings it returns `std::nullopt`; with a first mapping `Mapping` it returns
`Mapping::Target()` when `dynamic_cast<const typename Mapping::Base*>(std::addressof(base))`
is not null, and otherwise the result of `PolymorphicMapper<Base, Target, Mappings...>::map(base)`.
The class hierarchy belongs to the caller, so the outcome of the cast is the parameter
`dynamic_cast k base` (true when the cast to `const k*` is not null). -/
def PolymorphicMapper.map {Obj Kind Target : Type} (dynamic_cast : Kind → Obj → Bool) :
    List (Mapping Kind Target) → Obj → Option Target
  | [], _ => none
  | m :: ms, base =>
    if dynamic_cast m.Base base then some m.Target
    else PolymorphicMapper.map dynamic_cast ms base

end polymapper

namespace slice

/-- Number of values of `std::size_t` (64 bits): its arithmetic is modulo this number. -/
def SIZE_MOD : Nat := 2 ^ 64

/-- Largest value of `std::ptrdiff_t`. -/
def PTRDIFF_MAX : Int := 2 ^ 63 - 1

/-- Smallest value of `std::ptrdiff_t`. -/
def PTRDIFF_MIN : Int := -(2 ^ 63)

/-- Conversion of a `std::ptrdiff_t` to `std::size_t`, as done by the usual arithmetic
conversions when the two types meet in one expression. -/
def toSizeT (x : Int) : Nat := (x % (SIZE_MOD : Int)).toNat

/-- A value of `std::ptrdiff_t` arithmetic is defined when it is in range; signed
overflow is undefined behaviour. -/
def inPtrdiff (x : Int) : Bool := decide (PTRDIFF_MIN ≤ x) && decide (x ≤ PTRDIFF_MAX)

/-- `SliceIterator<T, stride>`: the pointer `data_`, as a position counted in elements of
`T`, and the stride held by `StrideBase`. -/
structure SliceIterator where
  data_ : Int
  stride_ : Int
  deriving DecidableEq

/-- `StrideBase::Stride()`. -/
def SliceIterator.Stride (it : SliceIterator) : Int := it.stride_

/-- `operator*`: `return *data_;`, the element designated, given by its position. -/
def SliceIterator.deref (it : SliceIterator) : Int := it.data_

/-- `operator++`: `data_ += StrideBase::Stride();`. -/
def SliceIterator.inc (it : SliceIterator) : SliceIterator :=
  { it with data_ := it.data_ + it.Stride }

/-- `operator+=`: `data_ += offset * StrideBase::Stride();`.  The product is signed. -/
def SliceIterator.addAssign (it : SliceIterator) (offset : Int) : Option SliceIterator :=
  if inPtrdiff (offset * it.Stride) then some { it with data_ := it.data_ + offset * it.Stride }
  else none

/-- `operator+`: `SliceIterator tmp{*this}; tmp += offset; return tmp;`. -/
def SliceIterator.add (it : SliceIterator) (offset : Int) : Option SliceIterator :=
  it.addAssign offset

/-- `operator[]`: `return *(data_ + offset);`, the element designated, given by its position. -/
def SliceIterator.subscript (it : SliceIterator) (offset : Int) : Int :=
  it.data_ + offset

/-- `Slice<T, extent, stride>`: the pointer `data_` as a position counted in elements of
`T`, the size held by `SizeBase` and the stride held by `StrideBase`. -/
structure Slice where
  data_ : Int
  size_ : Nat
  stride_ : Int
  deriving DecidableEq

/-- `Slice::Size()`. -/
def Slice.Size (s : Slice) : Nat := s.size_

/-- `Slice::Stride()`. -/
def Slice.Stride (s : Slice) : Int := s.stride_

/-- `Slice::Data()`. -/
def Slice.Data (s : Slice) : Int := s.data_

/-- The displacement that adding a `std::size_t` to a pointer produces: addresses are
computed modulo `2 ^ 64`, so a value from `2 ^ 63` on moves the pointer backwards. -/
def toPtrdiff (u : Nat) : Int := if u < 2 ^ 63 then (u : Int) else (u : Int) - (SIZE_MOD : Int)

/-- `Slice::operator[]`: `assert(index < this->Size()); return data_[index * this->Stride()];`.
The result is the position of the element designated; `none` when the assertion fails.
The product of a `std::size_t` and a `std::ptrdiff_t` is computed in `std::size_t`, and
the pointer sum is taken modulo `2 ^ 64`, so that a negative stride steps backwards. -/
def Slice.subscript (s : Slice) (index : Nat) : Option Int :=
  if index < s.Size then some (s.data_ + toPtrdiff ((index * toSizeT s.Stride) % SIZE_MOD))
  else none

/-- `Slice::Skip(std::ptrdiff_t skip)`:
`return {data_, Size() - (Size() / skip) * (skip - 1), Stride() * skip};`.
The size is computed in `std::size_t` (division by zero is undefined), `skip - 1` and
`Stride() * skip` in `std::ptrdiff_t` (overflow is undefined); `none` stands for
undefined behaviour. -/
def Slice.Skip (s : Slice) (skip : Int) : Option Slice :=
  if toSizeT skip = 0 then none
  else if !inPtrdiff (skip - 1) then none
  else if !inPtrdiff (s.Stride * skip) then none
  else some
    { data_ := s.data_
      size_ := (s.Size + SIZE_MOD
        - ((s.Size / toSizeT skip) * toSizeT (skip - 1)) % SIZE_MOD) % SIZE_MOD
      stride_ := s.Stride * skip }

end slice

namespace type_lists

/-- Types of the metaprogram.  `ValueTag v` is `value_types::ValueTag<v>`, `Atom k`
stands for any other ordinary type (`int`, `char`, ...), `TTuple ts` is
`type_tuples::TTuple<ts...>`; the other constructors are the struct templates of
`type_lists.hpp` and `fun_value_sequences.hpp` under their own names.  Template
template arguments (`Mapper`, `Predicate`, `Func`, `OP`) are named by a number and
interpreted by an `Env`. -/
inductive Ty where
  | ValueTag (v : Int)
  | Atom (k : Nat)
  | TTuple (ts : List Ty)
  | Nil
  | Cons (T : Ty) (TL : Ty)
  | FromTupleHelper (TT : Ty)
  | Repeat (T : Ty)
  | Take (N : Nat) (T : Ty)
  | Drop (N : Nat) (TL : Ty)
  | Replicate (N : Nat) (T : Ty)
  | MapHelper (Mapper : Nat) (TL : Ty)
  | FilterHelper (Predicate : Nat) (TL : Ty)
  | Iterate (Func : Nat) (T : Ty)
  | CycleHelper (Curr : Ty) (Full : Ty)
  | Append (TL : Ty) (T : Ty)
  | InitsHelper (LHS : Ty) (RHS : Ty)
  | TailsHelper (TL : Ty)
  | ScanlHelper (OP : Nat) (T : Ty) (TL : Ty)
  | Zip2Helper (LHS : Ty) (RHS : Ty)
  | ZipHelper (Ts : List Ty)
  | NatsHelper (N : Int)
  | FibHelper (LHS : Int) (RHS : Int)
  | PrimeHelper (N : Int)

/-- Interpretation of the template template arguments: `mapper k` is a unary
`template<class> typename` (used by `Map` and `Iterate`), `pred k` is the
`Predicate<T>::Value` of a predicate, `op k` a binary `template<class, class> typename`. -/
structure Env where
  mapper : Nat → Ty → Ty
  pred : Nat → Ty → Bool
  op : Nat → Ty → Ty → Ty

/-- What the instantiation of a type exposes to the concepts of the library.
* `empty`      : a complete class derived from `Nil` (`Empty` holds);
* `seq h t`    : a complete class with members `Head = h` and `Tail = t` (`TypeSequence` holds);
* `other`      : a complete type that is neither (`int`, `TTuple<...>`, `ValueTag<..>`);
* `incomplete` : a specialisation of a template whose primary is only declared and
                 for which no partial specialisation matches;
* `error`      : instantiation is ill-formed (ambiguous partial specialisations,
                 unsatisfied constraints of a template-id, overflow in a constant expression). -/
inductive Shape where
  | empty
  | seq (Head : Ty) (Tail : Ty)
  | other
  | incomplete
  | error

/-- Result of evaluating a constraint: satisfied, not satisfied, or a hard error
raised while evaluating it. -/
inductive Chk where
  | yes
  | no
  | err
  deriving DecidableEq

/-- Result of a metafunction (`::value`) or of a `consteval` function. -/
inductive Outcome (α : Type) where
  | ok (a : α)
  | illFormed

/-- `concept TypeSequence = requires { typename TL::Head; typename TL::Tail; }`.
Naming a member of an incomplete class is a substitution failure (not satisfied);
an ill-formed instantiation of the class itself is a hard error. -/
def TypeSequence : Shape → Chk
  | .seq _ _ => .yes
  | .error => .err
  | _ => .no

/-- `concept Empty = std::derived_from<TL, Nil>`.  `std::is_base_of` requires a
complete class, so an incomplete argument is an error rather than `false`. -/
def Empty : Shape → Chk
  | .empty => .yes
  | .seq _ _ => .no
  | .other => .no
  | .incomplete => .err
  | .error => .err

/-- `concept TypeList = Empty<TL> || TypeSequence<TL>`, evaluated left to right. -/
def TypeList (s : Shape) : Chk :=
  match Empty s with
  | .yes => .yes
  | .err => .err
  | .no => TypeSequence s

/-- Forming a template-id whose primary template constrains the argument `t` with
`TypeList`: the constraint is evaluated on `t` (which instantiates `t`), and the
continuation `k` is used only when it is satisfied. -/
def named (rec : Ty → Option Shape) (t : Ty) (k : Option Shape) : Option Shape :=
  match rec t with
  | none => none
  | some s =>
    match TypeList s with
    | .yes => k
    | _ => some .error

/-- The constraint `(TypeSequence<Ts> && ...)` of the first partial specialisation of
`ZipHelper`, evaluated left to right with short circuit; when satisfied it also
returns the heads and the tails of the pack. -/
def allTypeSequence (rec : Ty → Option Shape) : List Ty → Option (Outcome (Option (List Ty × List Ty)))
  | [] => some (.ok (some ([], [])))
  | t :: ts =>
    match rec t with
    | none => none
    | some .error => some .illFormed
    | some (.seq h tl) =>
      match allTypeSequence rec ts with
      | none => none
      | some .illFormed => some .illFormed
      | some (.ok none) => some (.ok none)
      | some (.ok (some (hs, tls))) => some (.ok (some (h :: hs, tl :: tls)))
    | some _ => some (.ok none)

/-- `std::is_same_v<Nil, T>`: identity of types, not derivation. -/
def isSameNil : Ty → Bool
  | .Nil => true
  | _ => false

/-- The constraint introduced by `template <HasEmpty... Ts>`.  A type-constraint on a
parameter pack constrains every element on its own, i.e. it is the fold
`(HasEmpty<Ts> && ...)`, and `HasEmpty<T>` for one type is `std::is_same_v<Nil, T>`. -/
def HasEmpty (Ts : List Ty) : Bool :=
  Ts.all isSameNil

/-- Largest value of `int`. -/
def INT_MAX : Int := 2147483647

/-- Smallest value of `int`. -/
def INT_MIN : Int := -2147483648

/-- The loop of `IsPrime`: `for (int i = 2; i * i <= n; i++) if (n % i == 0) return false;`
followed by `return true`.  Signed overflow of `i * i` is not a constant expression. -/
def IsPrimeLoop (n : Int) : Nat → Int → Option (Outcome Bool)
  | 0, _ => none
  | fuel + 1, i =>
    if i * i > INT_MAX then some .illFormed
    else if i * i ≤ n then
      if Int.tmod n i = 0 then some (.ok false) else IsPrimeLoop n fuel (i + 1)
    else some (.ok true)

/-- `consteval bool IsPrime(int n)`. -/
def IsPrime (fuel : Nat) (n : Int) : Option (Outcome Bool) :=
  IsPrimeLoop n fuel 2

/-- The loop of `PrimeAt`: `for (int i = 0; i < idx; ++num) if (IsPrime(num)) ++i;`
followed by `return num - 1`. -/
def PrimeAtLoop (idx : Int) : Nat → Int → Int → Option (Outcome Int)
  | 0, _, _ => none
  | fuel + 1, num, i =>
    if i < idx then
      match IsPrime fuel num with
      | none => none
      | some .illFormed => some .illFormed
      | some (.ok b) =>
        if num + 1 > INT_MAX then some .illFormed
        else PrimeAtLoop idx fuel (num + 1) (if b then i + 1 else i)
    else some (.ok (num - 1))

/-- `consteval int PrimeAt(int idx)`, with `int num = 2` and `int i = 0`. -/
def PrimeAt (fuel : Nat) (idx : Int) : Option (Outcome Int) :=
  PrimeAtLoop idx fuel 2 0

/-- Shape of `Cons<T, TL>`: `template <class T, TypeList TL> struct Cons` with
`Head = T` and `Tail = TL`. -/
def viewCons (rec : Ty → Option Shape) (T TL : Ty) : Option Shape :=
  named rec TL (some (.seq T TL))

/-- Shape of `FromTupleHelper<TT>`: the specialisation for `TTuple<T, Ts...>` has
`Head = T` and `Tail = FromTupleHelper<TTuple<Ts...>>`, the one for `TTuple<>` derives
from `Nil`, and the primary template is only declared. -/
def viewFromTupleHelper : Ty → Shape
  | .TTuple (T :: Ts) => .seq T (.FromTupleHelper (.TTuple Ts))
  | .TTuple [] => .empty
  | _ => .incomplete

/-- Shape of `Take<N, T>`: the primary template derives from `Nil`; the specialisation
`template <std::size_t N, TypeSequence TS> requires(N > 0)` has `Head = TS::Head` and
`Tail = Take<N - 1, typename TS::Tail>`. -/
def viewTake (rec : Ty → Option Shape) (N : Nat) (T : Ty) : Option Shape :=
  match rec T with
  | none => none
  | some .error => some .error
  | some (.seq h tl) => if N > 0 then some (.seq h (.Take (N - 1) tl)) else some .empty
  | some _ => some .empty

/-- Shape of `Drop<N, TL>`: the primary template `template <std::size_t N, TypeList TL>`
derives from `TL`; the specialisation `template <std::size_t N, TypeSequence TS>
requires(N > 0)` derives from `Drop<N - 1, typename TS::Tail>`. -/
def viewDrop (rec : Ty → Option Shape) (N : Nat) (TL : Ty) : Option Shape :=
  match rec TL with
  | none => none
  | some (.seq h tl) => if N > 0 then rec (.Drop (N - 1) tl) else some (.seq h tl)
  | some .empty => some .empty
  | some _ => some .error

/-- Shape of `Replicate<N, T>`: the primary template has `Head = T` and
`Tail = Replicate<N - 1, T>`; `Replicate<0, T>` derives from `Nil`. -/
def viewReplicate (N : Nat) (T : Ty) : Shape :=
  if N = 0 then .empty else .seq T (.Replicate (N - 1) T)

/-- Shape of `MapHelper<Mapper, TL>`: for a `TypeSequence`, `Head = Mapper<TS::Head>` and
`Tail = MapHelper<Mapper, typename TS::Tail>`; for an `Empty` list it derives from `Nil`. -/
def viewMapHelper (env : Env) (rec : Ty → Option Shape) (f : Nat) (TL : Ty) : Option Shape :=
  match rec TL with
  | none => none
  | some (.seq h tl) => named rec tl (some (.seq (env.mapper f h) (.MapHelper f tl)))
  | some .empty => some .empty
  | some _ => some .error

/-- Shape of `FilterHelper<Predicate, TL>`: for a `TypeSequence` whose head satisfies
`Predicate<Head>::Value == true`, `Head = TS::Head` and `Tail = FilterHelper<Predicate, Tail>`;
for any other `TypeSequence` it derives from `FilterHelper<Predicate, typename TS::Tail>`;
for an `Empty` list it derives from `Nil`.  A list that is its own `Tail` and whose head
fails the predicate would make the class its own base, which a compiler rejects; here the
instantiation of such a list does not return (`none` at every fuel). -/
def viewFilterHelper (env : Env) (rec : Ty → Option Shape) (p : Nat) (TL : Ty) : Option Shape :=
  match rec TL with
  | none => none
  | some (.seq h tl) =>
    if env.pred p h then named rec tl (some (.seq h (.FilterHelper p tl)))
    else rec (.FilterHelper p tl)
  | some .empty => some .empty
  | some _ => some .error

/-- Shape of `CycleHelper<Curr, Full>`:
`template <TypeList Curr, Empty Full>` derives from `Nil`;
`template <TypeSequence Curr, TypeSequence Full>` has `Head = Curr::Head` and
`Tail = CycleHelper<typename Curr::Tail, Full>`;
`template <Empty Curr, TypeSequence Full>` derives from `CycleHelper<Full, Full>`. -/
def viewCycleHelper (rec : Ty → Option Shape) (Curr Full : Ty) : Option Shape :=
  match rec Curr with
  | none => none
  | some c =>
    match rec Full with
    | none => none
    | some f =>
      match c, f with
      | .seq _ _, .empty => some .empty
      | .empty, .empty => some .empty
      | .seq h tl, .seq _ _ => named rec tl (some (.seq h (.CycleHelper tl Full)))
      | .empty, .seq _ _ => rec (.CycleHelper Full Full)
      | _, _ => some .error

/-- Shape of `Append<TL, T>`: for a `TypeSequence`, `Head = TS::Head` and
`Tail = Append<typename TS::Tail, T>`; for an `Empty` list, `Head = T` and `Tail = Nil`. -/
def viewAppend (rec : Ty → Option Shape) (TL T : Ty) : Option Shape :=
  match rec TL with
  | none => none
  | some (.seq h tl) => named rec tl (some (.seq h (.Append tl T)))
  | some .empty => some (.seq T .Nil)
  | some _ => some .error

/-- Shape of `InitsHelper<LHS, RHS>`: `template <TypeList LHS, TypeSequence RHS>` has
`Head = LHS` and `Tail = InitsHelper<Append<LHS, typename RHS::Head>, typename RHS::Tail>`;
`template <TypeList LHS, Empty RHS>` has `Head = LHS` and `Tail = Nil`. -/
def viewInitsHelper (rec : Ty → Option Shape) (LHS RHS : Ty) : Option Shape :=
  match rec LHS with
  | none => none
  | some l =>
    match rec RHS with
    | none => none
    | some r =>
      match TypeList l, r with
      | .yes, .empty => some (.seq LHS .Nil)
      | .yes, .seq h tl =>
        named rec (.Append LHS h)
          (named rec tl (some (.seq LHS (.InitsHelper (.Append LHS h) tl))))
      | _, _ => some .error

/-- Shape of `TailsHelper<TL>`: `template <TypeSequence TS>` has `Head = TS` and
`Tail = TailsHelper<typename TS::Tail>`; `template <Empty T>` has `Head = Nil` and `Tail = Nil`. -/
def viewTailsHelper (rec : Ty → Option Shape) (TL : Ty) : Option Shape :=
  match rec TL with
  | none => none
  | some (.seq _ tl) => named rec tl (some (.seq TL (.TailsHelper tl)))
  | some .empty => some (.seq .Nil .Nil)
  | some _ => some .error

/-- Shape of `ScanlHelper<OP, T, TL>`: for a `TypeSequence`, `Head = T` and
`Tail = ScanlHelper<OP, OP<T, typename TS::Head>, typename TS::Tail>`; for an `Empty`
list, `Head = T` and `Tail = Nil`. -/
def viewScanlHelper (env : Env) (rec : Ty → Option Shape) (o : Nat) (T TL : Ty) : Option Shape :=
  match rec TL with
  | none => none
  | some (.seq h tl) => named rec tl (some (.seq T (.ScanlHelper o (env.op o T h) tl)))
  | some .empty => some (.seq T .Nil)
  | some _ => some .error

/-- Shape of `Zip2Helper<LHS, RHS>`:
`template <TypeSequence LHS, TypeSequence RHS>` has `Head = TTuple<LHS::Head, RHS::Head>` and
`Tail = Zip2Helper<typename LHS::Tail, typename RHS::Tail>`;
`template <Empty LHS, TypeList RHS>` and `template <TypeList LHS, Empty RHS>` derive from `Nil`.
When both arguments are `Empty` the last two specialisations both match, and neither
constraint subsumes the other (`Empty<LHS> && TypeList<RHS>` against
`TypeList<LHS> && Empty<RHS>`), so the instantiation is ambiguous. -/
def viewZip2Helper (rec : Ty → Option Shape) (LHS RHS : Ty) : Option Shape :=
  match rec LHS with
  | none => none
  | some l =>
    match rec RHS with
    | none => none
    | some r =>
      match l, r with
      | .seq hl tl, .seq hr tr =>
        named rec tl (named rec tr (some (.seq (.TTuple [hl, hr]) (.Zip2Helper tl tr))))
      | .empty, .seq _ _ => some .empty
      | .seq _ _, .empty => some .empty
      | .empty, .empty => some .error
      | _, _ => some .error

/-- Shape of `ZipHelper<Ts...>`: the primary `template <class... Ts>` is only declared;
`template <TypeSequence... Ts>` has `Head = TTuple<typename Ts::Head...>` and
`Tail = ZipHelper<typename Ts::Tail...>`; `template <HasEmpty... Ts>` derives from `Nil`.
For the empty pack both specialisations match and neither is more constrained. -/
def viewZipHelper (rec : Ty → Option Shape) (Ts : List Ty) : Option Shape :=
  match allTypeSequence rec Ts with
  | none => none
  | some .illFormed => some .error
  | some (.ok (some (hs, tls))) =>
    if HasEmpty Ts then some .error else some (.seq (.TTuple hs) (.ZipHelper tls))
  | some (.ok none) => if HasEmpty Ts then some .empty else some .incomplete

/-- Shape of `NatsHelper<N>`: `Head = ValueTag<N>` and `Tail = NatsHelper<N + 1>`, the
template argument `N + 1` being a constant expression of type `int`. -/
def viewNatsHelper (N : Int) : Shape :=
  if N + 1 > INT_MAX then .error else .seq (.ValueTag N) (.NatsHelper (N + 1))

/-- Shape of `FibHelper<LHS, RHS>`: `Head = ValueTag<LHS>` and
`Tail = FibHelper<RHS, LHS + RHS>`, the sum being a constant expression of type `int`. -/
def viewFibHelper (LHS RHS : Int) : Shape :=
  if LHS + RHS > INT_MAX ∨ LHS + RHS < INT_MIN then .error
  else .seq (.ValueTag LHS) (.FibHelper RHS (LHS + RHS))

/-- Shape of `PrimeHelper<N>`: `Head = ValueTag<PrimeAt(N)>` and `Tail = PrimeHelper<N + 1>`. -/
def viewPrimeHelper (fuel : Nat) (N : Int) : Option Shape :=
  match PrimeAt fuel N with
  | none => none
  | some .illFormed => some .error
  | some (.ok p) =>
    if N + 1 > INT_MAX then some .error else some (.seq (.ValueTag p) (.PrimeHelper (N + 1)))

/-- One level of template instantiation: the shape of `t`, given the shapes `rec`
of the types whose instantiation it triggers (template arguments inspected by a
constraint, base classes, arguments of constrained template-ids named by a member). -/
def viewStep (env : Env) (fuel : Nat) (rec : Ty → Option Shape) : Ty → Option Shape
  | .ValueTag _ => some .other
  | .Atom _ => some .other
  | .TTuple _ => some .other
  | .Nil => some .empty
  | .Cons T TL => viewCons rec T TL
  | .FromTupleHelper TT => some (viewFromTupleHelper TT)
  | .Repeat T => some (.seq T (.Repeat T))
  | .Take N T => viewTake rec N T
  | .Drop N TL => viewDrop rec N TL
  | .Replicate N T => some (viewReplicate N T)
  | .MapHelper f TL => viewMapHelper env rec f TL
  | .FilterHelper p TL => viewFilterHelper env rec p TL
  | .Iterate f T => some (.seq T (.Iterate f (env.mapper f T)))
  | .CycleHelper Curr Full => viewCycleHelper rec Curr Full
  | .Append TL T => viewAppend rec TL T
  | .InitsHelper LHS RHS => viewInitsHelper rec LHS RHS
  | .TailsHelper TL => viewTailsHelper rec TL
  | .ScanlHelper o T TL => viewScanlHelper env rec o T TL
  | .Zip2Helper LHS RHS => viewZip2Helper rec LHS RHS
  | .ZipHelper Ts => viewZipHelper rec Ts
  | .NatsHelper N => some (viewNatsHelper N)
  | .FibHelper LHS RHS => some (viewFibHelper LHS RHS)
  | .PrimeHelper N => viewPrimeHelper fuel N

/-- Instantiation of a type with a bound on the depth of nested instantiations;
`none` means the bound was reached. -/
def view (env : Env) : Nat → Ty → Option Shape
  | 0, _ => none
  | fuel + 1, t => viewStep env fuel (view env fuel) t

namespace detail

/-- `detail::ToTuple<TL, Ts...>::value`: for a `TypeSequence` it is
`ToTuple<typename TS::Tail, Ts..., typename TS::Head>::value`, for an `Empty` list it is
`TTuple<Ts...>`. -/
def ToTuple (env : Env) : Nat → Ty → List Ty → Option (Outcome Ty)
  | 0, _, _ => none
  | fuel + 1, TL, Ts =>
    match view env fuel TL with
    | none => none
    | some (.seq h tl) => ToTuple env fuel tl (Ts ++ [h])
    | some .empty => some (.ok (.TTuple Ts))
    | some _ => some .illFormed

/-- `detail::FoldlHelper<TL>::value`: `template <TypeSequence TS> requires
TypeSequence<typename TS::Tail>` gives `FoldlHelper<typename TS::Tail>::value`, the less
constrained `template <TypeSequence TS>` gives `TS::Head`; the primary is only declared. -/
def FoldlHelper (env : Env) : Nat → Ty → Option (Outcome Ty)
  | 0, _ => none
  | fuel + 1, TL =>
    match view env fuel TL with
    | none => none
    | some (.seq h tl) =>
      match view env fuel tl with
      | none => none
      | some s =>
        match TypeSequence s with
        | .yes => FoldlHelper env fuel tl
        | .no => some (.ok h)
        | .err => some .illFormed
    | some _ => some .illFormed

end detail

/-- `template<class TT> using FromTuple = detail::FromTupleHelper<TT>`. -/
def FromTuple (TT : Ty) : Ty := .FromTupleHelper TT

/-- `template<TypeList TL> using ToTuple = typename detail::ToTuple<TL>::value`. -/
def ToTuple (env : Env) (fuel : Nat) (TL : Ty) : Option (Outcome Ty) :=
  detail.ToTuple env fuel TL []

/-- `template <template<class> typename Mapper, TypeList TL> using Map = detail::MapHelper<Mapper, TL>`. -/
def Map (Mapper : Nat) (TL : Ty) : Ty := .MapHelper Mapper TL

/-- `template <template<class> typename Predicate, TypeList TL> using Filter =
detail::FilterHelper<Predicate, TL>`. -/
def Filter (Predicate : Nat) (TL : Ty) : Ty := .FilterHelper Predicate TL

/-- `template <TypeList TL> using Cycle = detail::CycleHelper<TL, TL>`. -/
def Cycle (TL : Ty) : Ty := .CycleHelper TL TL

/-- `template <TypeList TL> using Inits = detail::InitsHelper<Nil, TL>`. -/
def Inits (TL : Ty) : Ty := .InitsHelper .Nil TL

/-- `template <TypeList TL> using Tails = detail::TailsHelper<TL>`. -/
def Tails (TL : Ty) : Ty := .TailsHelper TL

/-- `template <template<class, class> typename OP, class T, TypeList TL> using Scanl =
detail::ScanlHelper<OP, T, TL>`. -/
def Scanl (OP : Nat) (T TL : Ty) : Ty := .ScanlHelper OP T TL

/-- `template <template<class, class> typename OP, class T, TypeList TL> using Foldl =
detail::FoldlHelper<Scanl<OP, T, TL>>::value`. -/
def Foldl (env : Env) (fuel : Nat) (OP : Nat) (T TL : Ty) : Option (Outcome Ty) :=
  detail.FoldlHelper env fuel (Scanl OP T TL)

/-- `template <TypeList LHS, TypeList RHS> using Zip2 = detail::Zip2Helper<LHS, RHS>`. -/
def Zip2 (LHS RHS : Ty) : Ty := .Zip2Helper LHS RHS

/-- `template <TypeList... Ts> using Zip = detail::ZipHelper<Ts...>`.  The constraint
`TypeList... Ts` of the alias is a precondition on its arguments and is not represented:
`Zip` is meant to be applied to type lists only. -/
def Zip (Ts : List Ty) : Ty := .ZipHelper Ts

/-- `using Nats = detail::NatsHelper<0>`. -/
def Nats : Ty := .NatsHelper 0

/-- `using Fib = detail::FibHelper<0, 1>`. -/
def Fib : Ty := .FibHelper 0 1

/-- `using Primes = detail::PrimeHelper<1>`. -/
def Primes : Ty := .PrimeHelper 1

/-! ## Observations used to state the properties -/

/-- The instantiation of `t` terminates and exposes the shape `s`. -/
def Views (env : Env) (t : Ty) (s : Shape) : Prop :=
  ∃ fuel, view env fuel t = some s

/-- Starting from `t`, the elements `xs` are observed in order (each step is a
`TypeSequence` whose `Head` is the next element) and the remaining list is `rest`. -/
def Emits (env : Env) : Ty → List Ty → Ty → Prop
  | t, [], rest => t = rest
  | t, x :: xs, rest => ∃ tl, Views env t (.seq x tl) ∧ Emits env tl xs rest

/-- The type `t` is a finite list with exactly the elements `xs`: after `xs` the
remaining list is `Empty`. -/
def IsFinite (env : Env) (t : Ty) (xs : List Ty) : Prop :=
  ∃ rest, Emits env t xs rest ∧ Views env rest .empty

/-- The type `t` is an infinite list: it emits a run of every length. -/
def IsInfinite (env : Env) (t : Ty) : Prop :=
  ∀ n : Nat, ∃ xs rest, xs.length = n ∧ Emits env t xs rest

/-- The `i`-th element (0-based) of the list `t` is `x`: after `i` steps along `Tail`
the list is a `TypeSequence` whose `Head` is `x`. -/
def ElemAt (env : Env) : Ty → Nat → Ty → Prop
  | t, 0, x => ∃ tl, Views env t (.seq x tl)
  | t, i + 1, x => ∃ h tl, Views env t (.seq h tl) ∧ ElemAt env tl i x

/-- The tuples `TTuple<l_i, r_i>` of corresponding elements of two collections. -/
def pairs (xs ys : List Ty) : List Ty :=
  List.zipWith (fun a b => Ty.TTuple [a, b]) xs ys

/-- Environment used for concrete instances: identity mappers, predicates that always
hold, and operations that add the values of two `ValueTag`s. -/
def exampleEnv : Env where
  mapper := fun _ t => t
  pred := fun _ _ => true
  op := fun _ a b =>
    match a, b with
    | .ValueTag x, .ValueTag y => .ValueTag (x + y)
    | _, _ => a

/-- Certificate check used to show that a given number is prime: `noDivisorIn n d lo` tests
that none of the `2 ^ d` numbers `lo, lo + 1, ...` divides `n`, halving the range so that
the evaluation stays shallow. -/
def noDivisorIn (n : Nat) : Nat → Nat → Bool
  | 0, lo => !(Nat.beq (n % lo) 0)
  | d + 1, lo => noDivisorIn n d lo && noDivisorIn n d (lo + 2 ^ d)

/-! ## Fuel: more fuel never changes a result -/

theorem named_mono {r r' : Ty → Option Shape} (hr : ∀ t s, r t = some s → r' t = some s)
    {k k' : Option Shape} (hk : ∀ s, k = some s → k' = some s) (t : Ty) (s : Shape)
    (h : named r t k = some s) : named r' t k' = some s := by
  unfold named at h ⊢
  cases hrt : r t with
  | none => simp [hrt] at h
  | some x =>
    rw [hrt] at h
    rw [hr _ _ hrt]
    cases hx : TypeList x <;> simp only [hx] at h ⊢
    · exact hk _ h
    · exact h
    · exact h

theorem allTypeSequence_mono {r r' : Ty → Option Shape} (hr : ∀ t s, r t = some s → r' t = some s) :
    ∀ (ts : List Ty) o, allTypeSequence r ts = some o → allTypeSequence r' ts = some o := by
  intro ts
  induction ts with
  | nil => intro o h; simpa [allTypeSequence] using h
  | cons t ts ih =>
    intro o h
    unfold allTypeSequence at h ⊢
    cases hrt : r t with
    | none => simp [hrt] at h
    | some x =>
      rw [hrt] at h
      rw [hr _ _ hrt]
      cases x with
      | seq hd tl =>
        simp only at h ⊢
        cases hrec : allTypeSequence r ts with
        | none => simp [hrec] at h
        | some y =>
          rw [hrec] at h
          rw [ih _ hrec]
          exact h
      | _ => exact h

theorem IsPrimeLoop_mono (n : Int) : ∀ (f f' : Nat) (i : Int) o, f ≤ f' →
    IsPrimeLoop n f i = some o → IsPrimeLoop n f' i = some o := by
  intro f
  induction f with
  | zero => intro f' i o _ h; simp [IsPrimeLoop] at h
  | succ f ih =>
    intro f' i o hle h
    obtain ⟨g, rfl⟩ : ∃ g, f' = g + 1 := ⟨f' - 1, by omega⟩
    unfold IsPrimeLoop at h ⊢
    split_ifs at h ⊢ with h1 h2 h3
    · exact h
    · exact h
    · exact ih g _ _ (by omega) h
    · exact h

theorem PrimeAtLoop_mono (idx : Int) : ∀ (f f' : Nat) (num i : Int) o, f ≤ f' →
    PrimeAtLoop idx f num i = some o → PrimeAtLoop idx f' num i = some o := by
  intro f
  induction f with
  | zero => intro f' num i o _ h; simp [PrimeAtLoop] at h
  | succ f ih =>
    intro f' num i o hle h
    obtain ⟨g, rfl⟩ : ∃ g, f' = g + 1 := ⟨f' - 1, by omega⟩
    unfold PrimeAtLoop at h ⊢
    by_cases h1 : i < idx
    · simp only [h1, if_true] at h ⊢
      cases hp : IsPrime f num with
      | none => simp [hp] at h
      | some b =>
        rw [hp] at h
        rw [show IsPrime g num = some b from IsPrimeLoop_mono _ _ _ _ _ (by omega) hp]
        cases b with
        | illFormed => exact h
        | ok b =>
          simp only at h ⊢
          by_cases h2 : num + 1 > INT_MAX
          · simp only [h2, if_true] at h ⊢; exact h
          · simp only [h2, if_false] at h ⊢
            exact ih g _ _ _ (by omega) h
    · simp only [h1, if_false] at h ⊢; exact h

theorem viewTake_mono {r r' : Ty → Option Shape} (hr : ∀ t s, r t = some s → r' t = some s)
    (N : Nat) (T : Ty) (s : Shape) (h : viewTake r N T = some s) : viewTake r' N T = some s := by
  unfold viewTake at h ⊢
  cases hrt : r T with
  | none => simp [hrt] at h
  | some x => rw [hrt] at h; rw [hr _ _ hrt]; exact h

theorem viewDrop_mono {r r' : Ty → Option Shape} (hr : ∀ t s, r t = some s → r' t = some s)
    (N : Nat) (T : Ty) (s : Shape) (h : viewDrop r N T = some s) : viewDrop r' N T = some s := by
  unfold viewDrop at h ⊢
  cases hrt : r T with
  | none => simp [hrt] at h
  | some x =>
    rw [hrt] at h; rw [hr _ _ hrt]
    cases x with
    | seq hd tl =>
      simp only at h ⊢
      by_cases hN : N > 0
      · simp only [hN, if_true] at h ⊢; exact hr _ _ h
      · simp only [hN, if_false] at h ⊢; exact h
    | _ => exact h

theorem viewMapHelper_mono (env : Env) {r r' : Ty → Option Shape}
    (hr : ∀ t s, r t = some s → r' t = some s)
    (f : Nat) (T : Ty) (s : Shape) (h : viewMapHelper env r f T = some s) :
    viewMapHelper env r' f T = some s := by
  unfold viewMapHelper at h ⊢
  cases hrt : r T with
  | none => simp [hrt] at h
  | some x =>
    rw [hrt] at h; rw [hr _ _ hrt]
    cases x with
    | seq hd tl => exact named_mono hr (fun _ h => h) _ _ h
    | _ => exact h

theorem viewFilterHelper_mono (env : Env) {r r' : Ty → Option Shape}
    (hr : ∀ t s, r t = some s → r' t = some s)
    (p : Nat) (T : Ty) (s : Shape) (h : viewFilterHelper env r p T = some s) :
    viewFilterHelper env r' p T = some s := by
  unfold viewFilterHelper at h ⊢
  cases hrt : r T with
  | none => simp [hrt] at h
  | some x =>
    rw [hrt] at h; rw [hr _ _ hrt]
    cases x with
    | seq hd tl =>
      simp only at h ⊢
      by_cases hp : env.pred p hd = true
      · simp only [hp, if_true] at h ⊢; exact named_mono hr (fun _ h => h) _ _ h
      · simp only [hp] at h ⊢; exact hr _ _ h
    | _ => exact h

theorem viewCycleHelper_mono {r r' : Ty → Option Shape}
    (hr : ∀ t s, r t = some s → r' t = some s)
    (C F : Ty) (s : Shape) (h : viewCycleHelper r C F = some s) :
    viewCycleHelper r' C F = some s := by
  unfold viewCycleHelper at h ⊢
  cases hc : r C with
  | none => simp [hc] at h
  | some c =>
    rw [hc] at h; rw [hr _ _ hc]
    cases hf : r F with
    | none => simp [hf] at h
    | some f =>
      rw [hf] at h; rw [hr _ _ hf]
      cases c <;> cases f <;> first
        | exact h
        | exact named_mono hr (fun _ h => h) _ _ h
        | exact hr _ _ h

theorem viewAppend_mono {r r' : Ty → Option Shape} (hr : ∀ t s, r t = some s → r' t = some s)
    (TL T : Ty) (s : Shape) (h : viewAppend r TL T = some s) : viewAppend r' TL T = some s := by
  unfold viewAppend at h ⊢
  cases hrt : r TL with
  | none => simp [hrt] at h
  | some x =>
    rw [hrt] at h; rw [hr _ _ hrt]
    cases x with
    | seq hd tl => exact named_mono hr (fun _ h => h) _ _ h
    | _ => exact h

theorem viewInitsHelper_mono {r r' : Ty → Option Shape}
    (hr : ∀ t s, r t = some s → r' t = some s)
    (L R : Ty) (s : Shape) (h : viewInitsHelper r L R = some s) :
    viewInitsHelper r' L R = some s := by
  unfold viewInitsHelper at h ⊢
  cases hc : r L with
  | none => simp [hc] at h
  | some c =>
    rw [hc] at h; rw [hr _ _ hc]
    cases hf : r R with
    | none => simp [hf] at h
    | some f =>
      rw [hf] at h; rw [hr _ _ hf]
      cases hl : TypeList c <;> cases f <;> simp only [hl] at h ⊢ <;> first
        | exact h
        | exact named_mono hr (named_mono hr (fun _ h => h) _) _ _ h

theorem viewTailsHelper_mono {r r' : Ty → Option Shape} (hr : ∀ t s, r t = some s → r' t = some s)
    (TL : Ty) (s : Shape) (h : viewTailsHelper r TL = some s) : viewTailsHelper r' TL = some s := by
  unfold viewTailsHelper at h ⊢
  cases hrt : r TL with
  | none => simp [hrt] at h
  | some x =>
    rw [hrt] at h; rw [hr _ _ hrt]
    cases x with
    | seq hd tl => exact named_mono hr (fun _ h => h) _ _ h
    | _ => exact h

theorem viewScanlHelper_mono (env : Env) {r r' : Ty → Option Shape}
    (hr : ∀ t s, r t = some s → r' t = some s)
    (o : Nat) (T TL : Ty) (s : Shape) (h : viewScanlHelper env r o T TL = some s) :
    viewScanlHelper env r' o T TL = some s := by
  unfold viewScanlHelper at h ⊢
  cases hrt : r TL with
  | none => simp [hrt] at h
  | some x =>
    rw [hrt] at h; rw [hr _ _ hrt]
    cases x with
    | seq hd tl => exact named_mono hr (fun _ h => h) _ _ h
    | _ => exact h

theorem viewZip2Helper_mono {r r' : Ty → Option Shape}
    (hr : ∀ t s, r t = some s → r' t = some s)
    (L R : Ty) (s : Shape) (h : viewZip2Helper r L R = some s) :
    viewZip2Helper r' L R = some s := by
  unfold viewZip2Helper at h ⊢
  cases hc : r L with
  | none => simp [hc] at h
  | some c =>
    rw [hc] at h; rw [hr _ _ hc]
    cases hf : r R with
    | none => simp [hf] at h
    | some f =>
      rw [hf] at h; rw [hr _ _ hf]
      cases c <;> cases f <;> first
        | exact h
        | exact named_mono hr (named_mono hr (fun _ h => h) _) _ _ h

theorem viewZipHelper_mono {r r' : Ty → Option Shape}
    (hr : ∀ t s, r t = some s → r' t = some s)
    (Ts : List Ty) (s : Shape) (h : viewZipHelper r Ts = some s) :
    viewZipHelper r' Ts = some s := by
  unfold viewZipHelper at h ⊢
  cases hc : allTypeSequence r Ts with
  | none => simp [hc] at h
  | some c =>
    rw [hc] at h; rw [allTypeSequence_mono hr _ _ hc]
    exact h

theorem viewPrimeHelper_mono {f f' : Nat} (hf : f ≤ f') (N : Int) (s : Shape)
    (h : viewPrimeHelper f N = some s) : viewPrimeHelper f' N = some s := by
  unfold viewPrimeHelper at h ⊢
  cases hc : PrimeAt f N with
  | none => simp [hc] at h
  | some c =>
    rw [hc] at h
    rw [show PrimeAt f' N = some c from PrimeAtLoop_mono _ _ _ _ _ _ hf hc]
    exact h

theorem viewStep_mono (env : Env) {f f' : Nat} (hf : f ≤ f') {r r' : Ty → Option Shape}
    (hr : ∀ t s, r t = some s → r' t = some s) (t : Ty) (s : Shape)
    (h : viewStep env f r t = some s) : viewStep env f' r' t = some s := by
  cases t with
  | Cons T TL => exact named_mono hr (fun _ h => h) _ _ h
  | Take N T => exact viewTake_mono hr _ _ _ h
  | Drop N T => exact viewDrop_mono hr _ _ _ h
  | MapHelper g T => exact viewMapHelper_mono env hr _ _ _ h
  | FilterHelper g T => exact viewFilterHelper_mono env hr _ _ _ h
  | CycleHelper C F => exact viewCycleHelper_mono hr _ _ _ h
  | Append C F => exact viewAppend_mono hr _ _ _ h
  | InitsHelper C F => exact viewInitsHelper_mono hr _ _ _ h
  | TailsHelper C => exact viewTailsHelper_mono hr _ _ h
  | ScanlHelper o C F => exact viewScanlHelper_mono env hr _ _ _ _ h
  | Zip2Helper C F => exact viewZip2Helper_mono hr _ _ _ h
  | ZipHelper C => exact viewZipHelper_mono hr _ _ h
  | PrimeHelper N => exact viewPrimeHelper_mono hf _ _ h
  | _ => exact h

theorem view_mono (env : Env) : ∀ (f f' : Nat), f ≤ f' → ∀ t s,
    view env f t = some s → view env f' t = some s := by
  intro f
  induction f with
  | zero => intro f' _ t s h; simp [view] at h
  | succ f ih =>
    intro f' hle t s h
    obtain ⟨g, rfl⟩ : ∃ g, f' = g + 1 := ⟨f' - 1, by omega⟩
    exact viewStep_mono env (by omega) (ih g (by omega)) t s h

/-! ## Instantiation rules -/

theorem view_succ (env : Env) (n : Nat) (t : Ty) :
    view env (n + 1) t = viewStep env n (view env n) t := rfl

theorem Views.det {env : Env} {t : Ty} {s s' : Shape} (h : Views env t s) (h' : Views env t s') :
    s = s' := by
  obtain ⟨n, hn⟩ := h
  obtain ⟨m, hm⟩ := h'
  have h1 := view_mono env n (max n m) (le_max_left _ _) _ _ hn
  have h2 := view_mono env m (max n m) (le_max_right _ _) _ _ hm
  rw [h1] at h2
  exact Option.some.inj h2

theorem Views.both {env : Env} {t t' : Ty} {s s' : Shape} (h : Views env t s)
    (h' : Views env t' s') : ∃ n, view env n t = some s ∧ view env n t' = some s' := by
  obtain ⟨n, hn⟩ := h
  obtain ⟨m, hm⟩ := h'
  exact ⟨max n m, view_mono env n _ (le_max_left _ _) _ _ hn,
    view_mono env m _ (le_max_right _ _) _ _ hm⟩

theorem Views_Nil (env : Env) : Views env .Nil .empty := ⟨1, rfl⟩

theorem Views_Repeat (env : Env) (T : Ty) : Views env (.Repeat T) (.seq T (.Repeat T)) := ⟨1, rfl⟩

theorem Views_FromTupleHelper (env : Env) (TT : Ty) :
    Views env (.FromTupleHelper TT) (viewFromTupleHelper TT) := ⟨1, rfl⟩

theorem Views_Take_seq {env : Env} {T x tl : Ty} {N : Nat} (h : Views env T (.seq x tl))
    (hN : 0 < N) : Views env (.Take N T) (.seq x (.Take (N - 1) tl)) := by
  obtain ⟨n, hn⟩ := h
  exact ⟨n + 1, by simp [view_succ, viewStep, viewTake, hn, hN]⟩

theorem Views_Take_zero {env : Env} {T x tl : Ty} (h : Views env T (.seq x tl)) :
    Views env (.Take 0 T) .empty := by
  obtain ⟨n, hn⟩ := h
  exact ⟨n + 1, by simp [view_succ, viewStep, viewTake, hn]⟩

theorem Views_Take_empty {env : Env} {T : Ty} {N : Nat} (h : Views env T .empty) :
    Views env (.Take N T) .empty := by
  obtain ⟨n, hn⟩ := h
  exact ⟨n + 1, by simp [view_succ, viewStep, viewTake, hn]⟩

theorem Views_Drop_zero {env : Env} {T x tl : Ty} (h : Views env T (.seq x tl)) :
    Views env (.Drop 0 T) (.seq x tl) := by
  obtain ⟨n, hn⟩ := h
  exact ⟨n + 1, by simp [view_succ, viewStep, viewDrop, hn]⟩

theorem Views_Drop_empty {env : Env} {T : Ty} {N : Nat} (h : Views env T .empty) :
    Views env (.Drop N T) .empty := by
  obtain ⟨n, hn⟩ := h
  exact ⟨n + 1, by simp [view_succ, viewStep, viewDrop, hn]⟩

theorem Views_Drop_succ {env : Env} {T x tl : Ty} {N : Nat} {s : Shape}
    (h : Views env T (.seq x tl)) (h' : Views env (.Drop N tl) s) :
    Views env (.Drop (N + 1) T) s := by
  obtain ⟨n, hn, hn'⟩ := h.both h'
  exact ⟨n + 1, by simp [view_succ, viewStep, viewDrop, hn, hn']⟩

/-- A shape that satisfies `TypeList`. -/
theorem TypeList_empty : TypeList .empty = .yes := rfl

theorem TypeList_seq (x tl : Ty) : TypeList (.seq x tl) = .yes := rfl

theorem IsFinite_nil {env : Env} {t : Ty} (h : Views env t .empty) : IsFinite env t [] :=
  ⟨t, rfl, h⟩

theorem IsFinite_cons {env : Env} {t x tl : Ty} {xs : List Ty} (h : Views env t (.seq x tl))
    (h' : IsFinite env tl xs) : IsFinite env t (x :: xs) := by
  obtain ⟨rest, he, hr⟩ := h'
  exact ⟨rest, ⟨tl, h, he⟩, hr⟩

theorem IsFinite_nil_inv {env : Env} {t : Ty} (h : IsFinite env t []) : Views env t .empty := by
  obtain ⟨rest, he, hr⟩ := h
  have : t = rest := he
  rw [this]; exact hr

theorem IsFinite_cons_inv {env : Env} {t x : Ty} {xs : List Ty} (h : IsFinite env t (x :: xs)) :
    ∃ tl, Views env t (.seq x tl) ∧ IsFinite env tl xs := by
  obtain ⟨rest, ⟨tl, hv, he⟩, hr⟩ := h
  exact ⟨tl, hv, rest, he, hr⟩

/-- A finite list is a `TypeList`: its instantiation exposes `Empty` or a `TypeSequence`. -/
theorem IsFinite.isList {env : Env} {t : Ty} {xs : List Ty} (h : IsFinite env t xs) :
    ∃ s, Views env t s ∧ TypeList s = .yes := by
  cases xs with
  | nil => exact ⟨_, IsFinite_nil_inv h, rfl⟩
  | cons x xs =>
    obtain ⟨tl, hv, _⟩ := IsFinite_cons_inv h
    exact ⟨_, hv, rfl⟩

/-- Lists with the same observations have the same elements. -/
theorem IsFinite_of_views {env : Env} {t t' : Ty} {xs : List Ty}
    (he : Views env t' .empty → Views env t .empty)
    (hs : ∀ x tl, Views env t' (.seq x tl) → Views env t (.seq x tl))
    (h : IsFinite env t' xs) : IsFinite env t xs := by
  cases xs with
  | nil => exact IsFinite_nil (he (IsFinite_nil_inv h))
  | cons x xs =>
    obtain ⟨tl, hv, hf⟩ := IsFinite_cons_inv h
    exact IsFinite_cons (hs _ _ hv) hf

theorem IsInfinite_inv {env : Env} {t : Ty} (h : IsInfinite env t) :
    ∃ x tl, Views env t (.seq x tl) ∧ IsInfinite env tl := by
  obtain ⟨xs, rest, hlen, he⟩ := h 1
  match xs, hlen, he with
  | [x], _, ⟨tl, hv, _⟩ =>
    refine ⟨x, tl, hv, ?_⟩
    intro n
    obtain ⟨ys, rest', hlen', he'⟩ := h (n + 1)
    match ys, hlen', he' with
    | y :: ys, hl, ⟨tl', hv', he''⟩ =>
      have := hv.det hv'
      injection this with h1 h2
      subst h2
      exact ⟨ys, rest', by simpa using hl, he''⟩

theorem IsInfinite_Repeat (env : Env) (T : Ty) : IsInfinite env (.Repeat T) := by
  intro n
  induction n with
  | zero => exact ⟨[], _, rfl, rfl⟩
  | succ n ih =>
    obtain ⟨xs, rest, hl, he⟩ := ih
    exact ⟨T :: xs, rest, by simp [hl], ⟨_, Views_Repeat env T, he⟩⟩

/-! ### C1 -/

theorem IsFinite_FromTuple (env : Env) (c : List Ty) : IsFinite env (FromTuple (.TTuple c)) c := by
  induction c with
  | nil => exact IsFinite_nil (Views_FromTupleHelper env _)
  | cons x xs ih => exact IsFinite_cons (Views_FromTupleHelper env _) ih

theorem detail.ToTuple_succ (env : Env) (n : Nat) (TL : Ty) (Ts : List Ty) :
    detail.ToTuple env (n + 1) TL Ts =
      match view env n TL with
      | none => none
      | some (.seq h tl) => detail.ToTuple env n tl (Ts ++ [h])
      | some .empty => some (.ok (.TTuple Ts))
      | some _ => some .illFormed := rfl

theorem ToTuple_FromTupleHelper (env : Env) : ∀ (c acc : List Ty),
    detail.ToTuple env (c.length + 2) (.FromTupleHelper (.TTuple c)) acc
      = some (.ok (.TTuple (acc ++ c))) := by
  intro c
  induction c with
  | nil => intro acc; simp [detail.ToTuple, view, viewStep, viewFromTupleHelper]
  | cons x xs ih =>
    intro acc
    have hv : view env (xs.length + 2) (.FromTupleHelper (.TTuple (x :: xs)))
        = some (.seq x (.FromTupleHelper (.TTuple xs))) := rfl
    show detail.ToTuple env ((xs.length + 2) + 1) _ _ = _
    rw [detail.ToTuple_succ, hv]
    simpa using ih (acc ++ [x])

/-- C1: for every finite ordered collection `c` (the empty one included), converting it
to a list with `FromTuple` and back with `ToTuple` terminates and yields `c` again, with
the same elements in the same order. -/
theorem ToTuple_FromTuple_roundtrip (env : Env) (c : List Ty) :
    ToTuple env (c.length + 2) (FromTuple (.TTuple c)) = some (.ok (.TTuple c)) := by
  simpa [ToTuple, FromTuple] using ToTuple_FromTupleHelper env c []

/-! ### C2 -/

theorem IsFinite_Take {env : Env} : ∀ (n : Nat) (s : Ty) (xs : List Ty),
    IsFinite env s xs → IsFinite env (.Take n s) (xs.take n) := by
  intro n
  induction n with
  | zero =>
    intro s xs h
    cases xs with
    | nil => exact IsFinite_nil (Views_Take_empty (IsFinite_nil_inv h))
    | cons x xs =>
      obtain ⟨tl, hv, _⟩ := IsFinite_cons_inv h
      exact IsFinite_nil (Views_Take_zero hv)
  | succ n ih =>
    intro s xs h
    cases xs with
    | nil => exact IsFinite_nil (Views_Take_empty (IsFinite_nil_inv h))
    | cons x xs =>
      obtain ⟨tl, hv, hf⟩ := IsFinite_cons_inv h
      exact IsFinite_cons (Views_Take_seq hv (Nat.succ_pos n)) (ih tl xs hf)

theorem IsInfinite_Take {env : Env} : ∀ (n : Nat) (s : Ty), IsInfinite env s →
    ∃ xs rest, xs.length = n ∧ Emits env s xs rest ∧ IsFinite env (.Take n s) xs := by
  intro n
  induction n with
  | zero =>
    intro s h
    obtain ⟨x, tl, hv, _⟩ := IsInfinite_inv h
    exact ⟨[], s, rfl, rfl, IsFinite_nil (Views_Take_zero hv)⟩
  | succ n ih =>
    intro s h
    obtain ⟨x, tl, hv, hinf⟩ := IsInfinite_inv h
    obtain ⟨xs, rest, hl, he, hf⟩ := ih tl hinf
    exact ⟨x :: xs, rest, by simp [hl], ⟨tl, hv, he⟩,
      IsFinite_cons (Views_Take_seq hv (Nat.succ_pos n)) hf⟩

/-- C2: for every `n` and every list `s`: when `s` is finite with elements `xs`,
`Take<n, s>` is the finite list of the first `min n (length xs)` elements of `xs`, its
`i`-th element being the `i`-th element of `xs`; when `s` is infinite, `Take<n, s>` is a
finite list of exactly `n` elements, namely the first `n` elements emitted by `s`. -/
theorem Take_spec (env : Env) (n : Nat) (s : Ty) :
    (∀ xs, IsFinite env s xs →
      IsFinite env (.Take n s) (xs.take n) ∧ (xs.take n).length = min n xs.length ∧
        ∀ i, i < min n xs.length → (xs.take n)[i]? = xs[i]?) ∧
    (IsInfinite env s →
      ∃ xs rest, xs.length = n ∧ Emits env s xs rest ∧ IsFinite env (.Take n s) xs) := by
  refine ⟨fun xs h => ⟨IsFinite_Take n s xs h, List.length_take _ _, ?_⟩, IsInfinite_Take n s⟩
  intro i hi
  rw [List.getElem?_take_of_lt (lt_of_lt_of_le hi (min_le_left _ _))]

theorem Take_spec_witness :
    (IsFinite exampleEnv (FromTuple (.TTuple [.Atom 0, .Atom 1, .Atom 2])) [.Atom 0, .Atom 1, .Atom 2] ∧
      IsFinite exampleEnv (.Take 2 (FromTuple (.TTuple [.Atom 0, .Atom 1, .Atom 2]))) [.Atom 0, .Atom 1]) ∧
    (IsInfinite exampleEnv (.Repeat (.Atom 0)) ∧
      ∃ xs rest, xs.length = 2 ∧ Emits exampleEnv (.Repeat (.Atom 0)) xs rest ∧
        IsFinite exampleEnv (.Take 2 (.Repeat (.Atom 0))) xs) :=
  ⟨⟨IsFinite_FromTuple _ _,
    ((Take_spec exampleEnv 2 (FromTuple (.TTuple [.Atom 0, .Atom 1, .Atom 2]))).1 _
      (IsFinite_FromTuple _ _)).1⟩,
   ⟨IsInfinite_Repeat _ _,
    (Take_spec exampleEnv 2 (.Repeat (.Atom 0))).2 (IsInfinite_Repeat _ _)⟩⟩

/-! ### C3 -/

theorem Views_Drop_of_short {env : Env} : ∀ (ys : List Ty) (n : Nat) (t : Ty),
    IsFinite env t ys → ys.length ≤ n → Views env (.Drop n t) .empty := by
  intro ys
  induction ys with
  | nil => intro n t h _; exact Views_Drop_empty (IsFinite_nil_inv h)
  | cons y ys ih =>
    intro n t h hle
    obtain ⟨tl, hv, hf⟩ := IsFinite_cons_inv h
    obtain ⟨m, rfl⟩ : ∃ m, n = m + 1 := ⟨n - 1, by simp at hle; omega⟩
    exact Views_Drop_succ hv (ih m tl hf (by simpa using hle))

/-- C3: for every list `s`, finite of any length or infinite, and every `n`, the
instantiation of `Drop<n, Take<n, s>>` terminates and is `Empty`. -/
theorem Drop_Take_empty (env : Env) (n : Nat) (s : Ty)
    (h : (∃ xs, IsFinite env s xs) ∨ IsInfinite env s) :
    Views env (.Drop n (.Take n s)) .empty := by
  rcases h with ⟨xs, hf⟩ | hinf
  · exact Views_Drop_of_short _ n _ (IsFinite_Take n s xs hf) (by simp)
  · obtain ⟨xs, rest, hl, _, hf⟩ := IsInfinite_Take n s hinf
    exact Views_Drop_of_short _ n _ hf (le_of_eq hl)

theorem Drop_Take_empty_witness :
    ((∃ xs, IsFinite exampleEnv (FromTuple (.TTuple [.Atom 0, .Atom 1, .Atom 2])) xs) ∧
      Views exampleEnv (.Drop 2 (.Take 2 (FromTuple (.TTuple [.Atom 0, .Atom 1, .Atom 2])))) .empty) ∧
    (IsInfinite exampleEnv (.Repeat (.Atom 0)) ∧
      Views exampleEnv (.Drop 5 (.Take 5 (.Repeat (.Atom 0)))) .empty) :=
  ⟨⟨⟨_, IsFinite_FromTuple _ _⟩,
    Drop_Take_empty exampleEnv 2 _ (Or.inl ⟨_, IsFinite_FromTuple _ _⟩)⟩,
   ⟨IsInfinite_Repeat _ _,
    Drop_Take_empty exampleEnv 5 _ (Or.inr (IsInfinite_Repeat _ _))⟩⟩

/-! ### C4 -/

theorem IsFinite_Drop {env : Env} : ∀ (n : Nat) (s : Ty) (xs : List Ty),
    IsFinite env s xs → IsFinite env (.Drop n s) (xs.drop n) := by
  intro n
  induction n with
  | zero =>
    intro s xs h
    exact IsFinite_of_views (fun he => Views_Drop_empty he) (fun _ _ hs => Views_Drop_zero hs) h
  | succ n ih =>
    intro s xs h
    cases xs with
    | nil => exact IsFinite_nil (Views_Drop_empty (IsFinite_nil_inv h))
    | cons x xs =>
      obtain ⟨tl, hv, hf⟩ := IsFinite_cons_inv h
      exact IsFinite_of_views (fun he => Views_Drop_succ hv he)
        (fun _ _ hs => Views_Drop_succ hv hs) (ih tl xs hf)

/-- C4: for every finite list `s` with elements `xs` and every `n`, `Drop<n, s>` is the
finite list `xs` without its first `n` elements: it has `length xs - n` elements, its
`i`-th element is the `(n + i)`-th element of `xs`, it is `Empty` when `n` is larger
than the length of `xs`, and `Drop<0, s>` has the elements of `s`. -/
theorem Drop_spec (env : Env) (n : Nat) (s : Ty) (xs : List Ty) (h : IsFinite env s xs) :
    IsFinite env (.Drop n s) (xs.drop n) ∧ (xs.drop n).length = xs.length - n ∧
      (∀ i, (xs.drop n)[i]? = xs[n + i]?) ∧
      (xs.length < n → Views env (.Drop n s) .empty) ∧
      IsFinite env (.Drop 0 s) xs := by
  refine ⟨IsFinite_Drop n s xs h, List.length_drop _ _, fun i => List.getElem?_drop _ _ _, ?_,
    IsFinite_Drop 0 s xs h⟩
  intro hlt
  exact Views_Drop_of_short xs n s h (le_of_lt hlt)

theorem Drop_spec_witness :
    IsFinite exampleEnv (FromTuple (.TTuple [.Atom 0, .Atom 1, .Atom 2])) [.Atom 0, .Atom 1, .Atom 2] ∧
    IsFinite exampleEnv (.Drop 1 (FromTuple (.TTuple [.Atom 0, .Atom 1, .Atom 2]))) [.Atom 1, .Atom 2] :=
  ⟨IsFinite_FromTuple _ _,
    (Drop_spec exampleEnv 1 _ [.Atom 0, .Atom 1, .Atom 2] (IsFinite_FromTuple _ _)).1⟩

/-! ### C5 -/

theorem Views_Zip2Helper_seq {env : Env} {L R hl tl hr tr : Ty} {sl sr : Shape}
    (h1 : Views env L (.seq hl tl)) (h2 : Views env R (.seq hr tr))
    (h3 : Views env tl sl) (h4 : TypeList sl = .yes)
    (h5 : Views env tr sr) (h6 : TypeList sr = .yes) :
    Views env (.Zip2Helper L R) (.seq (.TTuple [hl, hr]) (.Zip2Helper tl tr)) := by
  obtain ⟨n, hn1, hn2⟩ := h1.both h2
  obtain ⟨m, hm3, hm5⟩ := h3.both h5
  have a1 := view_mono env n (max n m) (le_max_left _ _) _ _ hn1
  have a2 := view_mono env n (max n m) (le_max_left _ _) _ _ hn2
  have a3 := view_mono env m (max n m) (le_max_right _ _) _ _ hm3
  have a5 := view_mono env m (max n m) (le_max_right _ _) _ _ hm5
  exact ⟨max n m + 1, by simp [view_succ, viewStep, viewZip2Helper, named, a1, a2, a3, a5, h4, h6]⟩

theorem Views_Zip2Helper_left {env : Env} {L R hr tr : Ty}
    (h1 : Views env L .empty) (h2 : Views env R (.seq hr tr)) :
    Views env (.Zip2Helper L R) .empty := by
  obtain ⟨n, hn1, hn2⟩ := h1.both h2
  exact ⟨n + 1, by simp [view_succ, viewStep, viewZip2Helper, hn1, hn2]⟩

theorem Views_Zip2Helper_right {env : Env} {L R hl tl : Ty}
    (h1 : Views env L (.seq hl tl)) (h2 : Views env R .empty) :
    Views env (.Zip2Helper L R) .empty := by
  obtain ⟨n, hn1, hn2⟩ := h1.both h2
  exact ⟨n + 1, by simp [view_succ, viewStep, viewZip2Helper, hn1, hn2]⟩

theorem Views_Zip2Helper_both {env : Env} {L R : Ty}
    (h1 : Views env L .empty) (h2 : Views env R .empty) :
    Views env (.Zip2Helper L R) .error := by
  obtain ⟨n, hn1, hn2⟩ := h1.both h2
  exact ⟨n + 1, by simp [view_succ, viewStep, viewZip2Helper, hn1, hn2]⟩

/-- Shortest-length behaviour of `Zip2` when the two finite lists have different
lengths: the result is the finite list of the tuples of corresponding elements. -/
theorem IsFinite_Zip2_of_length_ne {env : Env} : ∀ (xs ys : List Ty) (l r : Ty),
    IsFinite env l xs → IsFinite env r ys → xs.length ≠ ys.length →
    IsFinite env (Zip2 l r) (pairs xs ys) := by
  intro xs
  induction xs with
  | nil =>
    intro ys l r hl hr hne
    cases ys with
    | nil => exact absurd rfl hne
    | cons y ys =>
      obtain ⟨tr, hv, _⟩ := IsFinite_cons_inv hr
      exact IsFinite_nil (Views_Zip2Helper_left (IsFinite_nil_inv hl) hv)
  | cons x xs ih =>
    intro ys l r hl hr hne
    obtain ⟨tl, hvl, hfl⟩ := IsFinite_cons_inv hl
    cases ys with
    | nil => exact IsFinite_nil (Views_Zip2Helper_right hvl (IsFinite_nil_inv hr))
    | cons y ys =>
      obtain ⟨tr, hvr, hfr⟩ := IsFinite_cons_inv hr
      obtain ⟨sl, h3, h4⟩ := hfl.isList
      obtain ⟨sr, h5, h6⟩ := hfr.isList
      exact IsFinite_cons (Views_Zip2Helper_seq hvl hvr h3 h4 h5 h6)
        (ih ys tl tr hfl hfr (by simpa using hne))

/-- A list whose instantiation is ill-formed has no elements to report. -/
theorem not_IsFinite_of_error {env : Env} {t : Ty} (h : Views env t .error) (zs : List Ty) :
    ¬ IsFinite env t zs := by
  intro hf
  cases zs with
  | nil => exact Shape.noConfusion ((IsFinite_nil_inv hf).det h)
  | cons z zs =>
    obtain ⟨tl, hv, _⟩ := IsFinite_cons_inv hf
    exact Shape.noConfusion (hv.det h)

/-- When two finite lists of the same length are zipped, both arguments of `Zip2Helper`
become `Empty` at the same step and the instantiation there is ambiguous: the tuples
are emitted, and the remaining list is ill-formed instead of `Empty`. -/
theorem Zip2_of_length_eq {env : Env} : ∀ (xs ys : List Ty) (l r : Ty),
    IsFinite env l xs → IsFinite env r ys → xs.length = ys.length →
    ∃ rest, Emits env (Zip2 l r) (pairs xs ys) rest ∧ Views env rest .error := by
  intro xs
  induction xs with
  | nil =>
    intro ys l r hl hr he
    cases ys with
    | nil => exact ⟨_, rfl, Views_Zip2Helper_both (IsFinite_nil_inv hl) (IsFinite_nil_inv hr)⟩
    | cons y ys => simp at he
  | cons x xs ih =>
    intro ys l r hl hr he
    obtain ⟨tl, hvl, hfl⟩ := IsFinite_cons_inv hl
    cases ys with
    | nil => simp at he
    | cons y ys =>
      obtain ⟨tr, hvr, hfr⟩ := IsFinite_cons_inv hr
      obtain ⟨sl, h3, h4⟩ := hfl.isList
      obtain ⟨sr, h5, h6⟩ := hfr.isList
      obtain ⟨rest, hem, herr⟩ := ih ys tl tr hfl hfr (by simpa using he)
      exact ⟨rest, ⟨_, Views_Zip2Helper_seq hvl hvr h3 h4 h5 h6, hem⟩, herr⟩

theorem Emits_det {env : Env} : ∀ (xs ys : List Ty) (t r r' : Ty),
    Emits env t xs r → Emits env t ys r' → xs.length = ys.length → xs = ys ∧ r = r' := by
  intro xs
  induction xs with
  | nil =>
    intro ys t r r' h h' hl
    cases ys with
    | nil =>
      have e1 : t = r := h
      have e2 : t = r' := h'
      exact ⟨rfl, e1.symm.trans e2⟩
    | cons y ys => simp at hl
  | cons x xs ih =>
    intro ys t r r' h h' hl
    cases ys with
    | nil => simp at hl
    | cons y ys =>
      obtain ⟨tl, hv, he⟩ := h
      obtain ⟨tl', hv', he'⟩ := h'
      have := hv.det hv'
      injection this with e1 e2
      subst e1; subst e2
      obtain ⟨e3, e4⟩ := ih ys tl r r' he he' (by simpa using hl)
      exact ⟨by rw [e3], e4⟩

theorem not_IsFinite_of_Emits_error {env : Env} : ∀ (xs : List Ty) (t rest : Ty),
    Emits env t xs rest → Views env rest .error → ∀ zs, ¬ IsFinite env t zs := by
  intro xs
  induction xs with
  | nil =>
    intro t rest he herr zs
    have : t = rest := he
    subst this
    exact not_IsFinite_of_error herr zs
  | cons x xs ih =>
    intro t rest he herr zs hf
    obtain ⟨tl, hv, he'⟩ := he
    cases zs with
    | nil => exact Shape.noConfusion ((IsFinite_nil_inv hf).det hv)
    | cons z zs =>
      obtain ⟨tl', hv', hf'⟩ := IsFinite_cons_inv hf
      have := hv.det hv'
      injection this with e1 e2
      subst e2
      exact ih tl rest he' herr zs hf'

/-- C5 (the code at the failing input): `Zip2` of the one-element lists
`FromTuple<TTuple<A0>>` and `FromTuple<TTuple<A1>>`, and of two `Nil`s.  Both inputs are
finite lists of equal length; the instantiation of `Zip2Helper` with two `Empty`
arguments is ambiguous, so the result is not a finite list of any length, while the claim
says it is the list of length `min 1 1 = 1`. -/
theorem Zip2_equal_length_ill_formed :
    IsFinite exampleEnv (FromTuple (.TTuple [.Atom 0])) [.Atom 0] ∧
    IsFinite exampleEnv (FromTuple (.TTuple [.Atom 1])) [.Atom 1] ∧
    Views exampleEnv (Zip2 (FromTuple (.TTuple [.Atom 0])) (FromTuple (.TTuple [.Atom 1])))
      (.seq (.TTuple [.Atom 0, .Atom 1])
        (.Zip2Helper (.FromTupleHelper (.TTuple [])) (.FromTupleHelper (.TTuple [])))) ∧
    Views exampleEnv (.Zip2Helper (.FromTupleHelper (.TTuple [])) (.FromTupleHelper (.TTuple [])))
      .error ∧
    (∀ zs, ¬ IsFinite exampleEnv
      (Zip2 (FromTuple (.TTuple [.Atom 0])) (FromTuple (.TTuple [.Atom 1]))) zs) ∧
    Views exampleEnv (Zip2 .Nil .Nil) .error ∧
    (∀ zs, ¬ IsFinite exampleEnv (Zip2 .Nil .Nil) zs) := by
  have h1 : Views exampleEnv
      (Zip2 (FromTuple (.TTuple [.Atom 0])) (FromTuple (.TTuple [.Atom 1])))
      (.seq (.TTuple [.Atom 0, .Atom 1])
        (.Zip2Helper (.FromTupleHelper (.TTuple [])) (.FromTupleHelper (.TTuple [])))) :=
    ⟨3, rfl⟩
  have h2 : Views exampleEnv
      (.Zip2Helper (.FromTupleHelper (.TTuple [])) (.FromTupleHelper (.TTuple []))) .error :=
    ⟨2, rfl⟩
  have h3 : Views exampleEnv (Zip2 .Nil .Nil) .error := ⟨2, rfl⟩
  exact ⟨IsFinite_FromTuple _ _, IsFinite_FromTuple _ _, h1, h2,
    not_IsFinite_of_Emits_error [_] _ _ ⟨_, h1, rfl⟩ h2, h3, not_IsFinite_of_error h3⟩

/-! ### C6 -/

/-- A list whose remaining part, after some elements, is neither `Empty` nor a
`TypeSequence` is not a finite list. -/
theorem not_IsFinite_of_Emits {env : Env} {s : Shape} (hs : TypeList s ≠ .yes) :
    ∀ (xs : List Ty) (t rest : Ty),
    Emits env t xs rest → Views env rest s → ∀ zs, ¬ IsFinite env t zs := by
  intro xs
  induction xs with
  | nil =>
    intro t rest he hv zs hf
    have : t = rest := he
    subst this
    obtain ⟨s', hv', hl⟩ := hf.isList
    rw [hv'.det hv] at hl
    exact hs hl
  | cons x xs ih =>
    intro t rest he herr zs hf
    obtain ⟨tl, hv, he'⟩ := he
    cases zs with
    | nil => exact Shape.noConfusion ((IsFinite_nil_inv hf).det hv)
    | cons z zs =>
      obtain ⟨tl', hv', hf'⟩ := IsFinite_cons_inv hf
      have := hv.det hv'
      injection this with e1 e2
      subst e2
      exact ih tl rest he' herr zs hf'

/-- C6 (the code at the failing input): `Zip` of `FromTuple<TTuple<>>`, which is `Empty`
(derived from `Nil`), and the infinite `Repeat<A0>`.  No partial specialisation of
`ZipHelper` matches, because `HasEmpty` compares with `std::is_same_v<Nil, Ts>`: the type
is incomplete, not `Empty`.  Likewise `Zip` of finite lists of lengths 1 and 2 built with
`FromTuple` emits one tuple and is then incomplete, so it is not a finite list, while the
claim says it is the list of length 1. -/
theorem Zip_derived_empty_incomplete :
    Views exampleEnv (FromTuple (.TTuple [])) .empty ∧
    Views exampleEnv (Zip [FromTuple (.TTuple []), .Repeat (.Atom 0)]) .incomplete ∧
    ¬ Views exampleEnv (Zip [FromTuple (.TTuple []), .Repeat (.Atom 0)]) .empty ∧
    IsFinite exampleEnv (FromTuple (.TTuple [.Atom 0])) [.Atom 0] ∧
    IsFinite exampleEnv (FromTuple (.TTuple [.Atom 1, .Atom 2])) [.Atom 1, .Atom 2] ∧
    Views exampleEnv
      (Zip [FromTuple (.TTuple [.Atom 0]), FromTuple (.TTuple [.Atom 1, .Atom 2])])
      (.seq (.TTuple [.Atom 0, .Atom 1])
        (.ZipHelper [.FromTupleHelper (.TTuple []), .FromTupleHelper (.TTuple [.Atom 2])])) ∧
    Views exampleEnv
      (.ZipHelper [.FromTupleHelper (.TTuple []), .FromTupleHelper (.TTuple [.Atom 2])])
      .incomplete ∧
    (∀ zs, ¬ IsFinite exampleEnv
      (Zip [FromTuple (.TTuple [.Atom 0]), FromTuple (.TTuple [.Atom 1, .Atom 2])]) zs) := by
  have h1 : Views exampleEnv (Zip [FromTuple (.TTuple []), .Repeat (.Atom 0)]) .incomplete :=
    ⟨2, rfl⟩
  have h2 : Views exampleEnv
      (Zip [FromTuple (.TTuple [.Atom 0]), FromTuple (.TTuple [.Atom 1, .Atom 2])])
      (.seq (.TTuple [.Atom 0, .Atom 1])
        (.ZipHelper [.FromTupleHelper (.TTuple []), .FromTupleHelper (.TTuple [.Atom 2])])) :=
    ⟨2, rfl⟩
  have h3 : Views exampleEnv
      (.ZipHelper [.FromTupleHelper (.TTuple []), .FromTupleHelper (.TTuple [.Atom 2])])
      .incomplete := ⟨2, rfl⟩
  refine ⟨Views_FromTupleHelper _ _, h1, fun h => Shape.noConfusion (h.det h1),
    IsFinite_FromTuple _ _, IsFinite_FromTuple _ _, h2, h3, ?_⟩
  exact not_IsFinite_of_Emits (by decide) [_] _ _ ⟨_, h2, rfl⟩ h3

/-- With the bare `Nil` marker: `ZipHelper<Nil, Nil>` is `Empty`, and lists that end in
the bare `Nil` at the same step zip to a finite list. -/
theorem Zip_bare_Nil :
    Views exampleEnv (Zip [.Nil, .Nil]) .empty ∧
    IsFinite exampleEnv (Zip [.Cons (.Atom 0) .Nil, .Cons (.Atom 1) .Nil])
      [.TTuple [.Atom 0, .Atom 1]] :=
  ⟨⟨2, rfl⟩, IsFinite_cons ⟨3, rfl⟩ (IsFinite_nil ⟨2, rfl⟩)⟩

/-! ### C7 and C8 -/

theorem Views_CycleHelper_seq {env : Env} {C F h tl h' tl' : Ty} {s : Shape}
    (h1 : Views env C (.seq h tl)) (h2 : Views env F (.seq h' tl'))
    (h3 : Views env tl s) (h4 : TypeList s = .yes) :
    Views env (.CycleHelper C F) (.seq h (.CycleHelper tl F)) := by
  obtain ⟨n, hn1, hn2⟩ := h1.both h2
  obtain ⟨m, hm3⟩ := h3
  have a1 := view_mono env n (max n m) (le_max_left _ _) _ _ hn1
  have a2 := view_mono env n (max n m) (le_max_left _ _) _ _ hn2
  have a3 := view_mono env m (max n m) (le_max_right _ _) _ _ hm3
  exact ⟨max n m + 1, by simp [view_succ, viewStep, viewCycleHelper, named, a1, a2, a3, h4]⟩

theorem Views_CycleHelper_wrap {env : Env} {C F h' tl' : Ty} {s : Shape}
    (h1 : Views env C .empty) (h2 : Views env F (.seq h' tl'))
    (h3 : Views env (.CycleHelper F F) s) : Views env (.CycleHelper C F) s := by
  obtain ⟨n, hn1, hn2⟩ := h1.both h2
  obtain ⟨m, hm3⟩ := h3
  have a1 := view_mono env n (max n m) (le_max_left _ _) _ _ hn1
  have a2 := view_mono env n (max n m) (le_max_left _ _) _ _ hn2
  have a3 := view_mono env m (max n m) (le_max_right _ _) _ _ hm3
  exact ⟨max n m + 1, by simp [view_succ, viewStep, viewCycleHelper, a1, a2, a3]⟩

theorem Views_CycleHelper_empty {env : Env} {C F : Ty}
    (h1 : Views env C .empty) (h2 : Views env F .empty) :
    Views env (.CycleHelper C F) .empty := by
  obtain ⟨n, hn1, hn2⟩ := h1.both h2
  exact ⟨n + 1, by simp [view_succ, viewStep, viewCycleHelper, hn1, hn2]⟩

/-- Within one pass: position `i` of `CycleHelper<c, l>` is position `i` of `c`. -/
theorem ElemAt_CycleHelper_pass {env : Env} {l h0 t0 : Ty} (hl : Views env l (.seq h0 t0)) :
    ∀ (ys : List Ty) (c : Ty) (i : Nat) (x : Ty), IsFinite env c ys → ys[i]? = some x →
    ElemAt env (.CycleHelper c l) i x := by
  intro ys
  induction ys with
  | nil => intro c i x _ hx; simp at hx
  | cons y ys ih =>
    intro c i x hf hx
    obtain ⟨tl, hv, hf'⟩ := IsFinite_cons_inv hf
    obtain ⟨s, h3, h4⟩ := hf'.isList
    have hview := Views_CycleHelper_seq hv hl h3 h4
    cases i with
    | zero =>
      simp at hx
      subst hx
      exact ⟨_, hview⟩
    | succ i =>
      simp at hx
      exact ⟨_, _, hview, ih tl i x hf' hx⟩

/-- A list that has the `TypeSequence` observations of another one has its elements. -/
theorem ElemAt_of_views {env : Env} {t t' : Ty}
    (hs : ∀ x tl, Views env t' (.seq x tl) → Views env t (.seq x tl)) :
    ∀ (i : Nat) (x : Ty), ElemAt env t' i x → ElemAt env t i x := by
  intro i x h
  cases i with
  | zero =>
    obtain ⟨tl, hv⟩ := h
    exact ⟨tl, hs _ _ hv⟩
  | succ i =>
    obtain ⟨y, tl, hv, he⟩ := h
    exact ⟨y, tl, hs _ _ hv, he⟩

/-- After a whole pass over `c` the helper restarts from the full list `l`. -/
theorem ElemAt_CycleHelper_wrap {env : Env} {l h0 t0 : Ty} (hl : Views env l (.seq h0 t0))
    (j : Nat) (x : Ty) (hj : ElemAt env (.CycleHelper l l) j x) :
    ∀ (ys : List Ty) (c : Ty), IsFinite env c ys →
    ElemAt env (.CycleHelper c l) (ys.length + j) x := by
  intro ys
  induction ys with
  | nil =>
    intro c hf
    have hc := IsFinite_nil_inv hf
    simp only [List.length_nil, Nat.zero_add]
    exact ElemAt_of_views (fun _ _ hv => Views_CycleHelper_wrap hc hl hv) j x hj
  | cons y ys ih =>
    intro c hf
    obtain ⟨tl, hv, hf'⟩ := IsFinite_cons_inv hf
    obtain ⟨s, h3, h4⟩ := hf'.isList
    have hview := Views_CycleHelper_seq hv hl h3 h4
    have : (y :: ys).length + j = (ys.length + j) + 1 := by simp; omega
    rw [this]
    exact ⟨_, _, hview, ih tl hf'⟩

theorem ElemAt_Cycle {env : Env} {l : Ty} {xs : List Ty} (hf : IsFinite env l xs)
    (hne : xs ≠ []) : ∀ (i : Nat) (x : Ty), xs[i % xs.length]? = some x →
    ElemAt env (Cycle l) i x := by
  have hpos : 0 < xs.length := List.length_pos.mpr hne
  obtain ⟨h0, t0, hl⟩ : ∃ h0 t0, Views env l (.seq h0 t0) := by
    cases xs with
    | nil => exact absurd rfl hne
    | cons x xs =>
      obtain ⟨tl, hv, _⟩ := IsFinite_cons_inv hf
      exact ⟨_, _, hv⟩
  intro i
  induction i using Nat.strong_induction_on with
  | _ i ih =>
    intro x hx
    by_cases hlt : i < xs.length
    · rw [Nat.mod_eq_of_lt hlt] at hx
      exact ElemAt_CycleHelper_pass hl xs l i x hf hx
    · have hge : xs.length ≤ i := Nat.le_of_not_lt hlt
      have hmod : (i - xs.length) % xs.length = i % xs.length := (Nat.mod_eq_sub_mod hge).symm
      have hprev := ih (i - xs.length) (by omega) x (by rw [hmod]; exact hx)
      have := ElemAt_CycleHelper_wrap hl (i - xs.length) x hprev xs l hf
      rw [show xs.length + (i - xs.length) = i by omega] at this
      exact this

/-- An element at position `i` is reached by a run of length `i`. -/
theorem ElemAt_Emits {env : Env} : ∀ (i : Nat) (t x : Ty), ElemAt env t i x →
    ∃ xs rest tl, xs.length = i ∧ Emits env t xs rest ∧ Views env rest (.seq x tl) := by
  intro i
  induction i with
  | zero =>
    intro t x h
    obtain ⟨tl, hv⟩ := h
    exact ⟨[], t, tl, rfl, rfl, hv⟩
  | succ i ih =>
    intro t x h
    obtain ⟨y, tl, hv, he⟩ := h
    obtain ⟨xs, rest, tl', hlen, hem, hv'⟩ := ih tl x he
    exact ⟨y :: xs, rest, tl', by simp [hlen], ⟨tl, hv, hem⟩, hv'⟩

/-- A list with an element at every position never becomes `Empty`. -/
theorem never_empty_of_ElemAt {env : Env} {t : Ty} (h : ∀ i, ∃ x, ElemAt env t i x) :
    ∀ ys rest, Emits env t ys rest → ¬ Views env rest .empty := by
  intro ys rest he hv
  obtain ⟨x, hx⟩ := h ys.length
  obtain ⟨xs, rest', tl, hlen, hem, hv'⟩ := ElemAt_Emits _ _ _ hx
  obtain ⟨_, e⟩ := Emits_det xs ys t rest' rest hem he hlen
  subst e
  exact Shape.noConfusion (hv.det hv')

/-- C7: for every non-empty finite list `l` with elements `xs` and every index `i`, the
`i`-th element of `Cycle<l>` is the `(i mod length xs)`-th element of `xs`; `Cycle<l>`
never becomes `Empty`, whatever number of elements has been consumed; and
`Take<7, Cycle<FromTuple<TTuple<1, 2, 3>>>>` is the list `[1, 2, 3, 1, 2, 3, 1]`. -/
theorem Cycle_spec (env : Env) (l : Ty) (xs : List Ty) (hf : IsFinite env l xs)
    (hne : xs ≠ []) :
    (∀ i : Nat, ElemAt env (Cycle l) i
      (xs.get ⟨i % xs.length, Nat.mod_lt i (List.length_pos.mpr hne)⟩)) ∧
    (∀ ys rest, Emits env (Cycle l) ys rest → ¬ Views env rest .empty) ∧
    ToTuple env 20 (.Take 7 (Cycle (FromTuple (.TTuple [.ValueTag 1, .ValueTag 2, .ValueTag 3]))))
      = some (.ok (.TTuple [.ValueTag 1, .ValueTag 2, .ValueTag 3, .ValueTag 1, .ValueTag 2,
          .ValueTag 3, .ValueTag 1])) := by
  have key : ∀ i : Nat, ElemAt env (Cycle l) i
      (xs.get ⟨i % xs.length, Nat.mod_lt i (List.length_pos.mpr hne)⟩) := by
    intro i
    apply ElemAt_Cycle hf hne
    rw [List.getElem?_eq_getElem (Nat.mod_lt i (List.length_pos.mpr hne))]
    rfl
  exact ⟨key, never_empty_of_ElemAt (fun i => ⟨_, key i⟩), rfl⟩

theorem Cycle_spec_witness :
    IsFinite exampleEnv (FromTuple (.TTuple [.Atom 0, .Atom 1])) [.Atom 0, .Atom 1] ∧
    ElemAt exampleEnv (Cycle (FromTuple (.TTuple [.Atom 0, .Atom 1]))) 3 (.Atom 1) :=
  ⟨IsFinite_FromTuple _ _,
    (Cycle_spec exampleEnv (FromTuple (.TTuple [.Atom 0, .Atom 1])) [.Atom 0, .Atom 1]
      (IsFinite_FromTuple _ _) (by simp)).1 3⟩

/-- C8: `Cycle` applied to an `Empty` list is `Empty`: once `l` is instantiated (with
fuel `n`) and found `Empty`, one more level of instantiation gives `Cycle<l>` as a class
derived from `Nil`; the pass is not restarted, `Cycle<l>` is the list without elements and
exposes no `Head`. -/
theorem Cycle_empty (env : Env) (l : Ty) (n : Nat) (h : view env n l = some .empty) :
    view env (n + 1) (Cycle l) = some .empty ∧ IsFinite env (Cycle l) [] ∧
      ∀ x tl, ¬ Views env (Cycle l) (.seq x tl) := by
  have hv : view env (n + 1) (Cycle l) = some .empty := by
    simp [Cycle, view_succ, viewStep, viewCycleHelper, h]
  refine ⟨hv, IsFinite_nil ⟨n + 1, hv⟩, ?_⟩
  intro x tl hs
  exact Shape.noConfusion (hs.det ⟨n + 1, hv⟩)

theorem Cycle_empty_witness :
    view exampleEnv 1 .Nil = some .empty ∧ view exampleEnv 2 (Cycle .Nil) = some .empty :=
  ⟨rfl, (Cycle_empty exampleEnv .Nil 1 rfl).1⟩

/-! ### C10 -/

theorem Views_ScanlHelper_seq {env : Env} {TL T h tl : Ty} {o : Nat} {s : Shape}
    (h1 : Views env TL (.seq h tl)) (h3 : Views env tl s) (h4 : TypeList s = .yes) :
    Views env (.ScanlHelper o T TL) (.seq T (.ScanlHelper o (env.op o T h) tl)) := by
  obtain ⟨n, hn1, hn3⟩ := h1.both h3
  exact ⟨n + 1, by simp [view_succ, viewStep, viewScanlHelper, named, hn1, hn3, h4]⟩

theorem Views_ScanlHelper_empty {env : Env} {TL T : Ty} {o : Nat}
    (h1 : Views env TL .empty) :
    Views env (.ScanlHelper o T TL) (.seq T .Nil) := by
  obtain ⟨n, hn1⟩ := h1
  exact ⟨n + 1, by simp [view_succ, viewStep, viewScanlHelper, hn1]⟩

theorem IsFinite_Scanl {env : Env} (o : Nat) : ∀ (xs : List Ty) (s z : Ty),
    IsFinite env s xs → IsFinite env (Scanl o z s) (List.scanl (env.op o) z xs) := by
  intro xs
  induction xs with
  | nil =>
    intro s z h
    exact IsFinite_cons (Views_ScanlHelper_empty (IsFinite_nil_inv h)) (IsFinite_nil (Views_Nil env))
  | cons x xs ih =>
    intro s z h
    obtain ⟨tl, hv, hf⟩ := IsFinite_cons_inv h
    obtain ⟨sh, h3, h4⟩ := hf.isList
    exact IsFinite_cons (Views_ScanlHelper_seq hv h3 h4) (ih tl _ hf)

theorem getElem?_scanl_foldl {α β : Type} (f : β → α → β) : ∀ (xs : List α) (z : β) (i : Nat),
    i ≤ xs.length → (List.scanl f z xs)[i]? = some ((xs.take i).foldl f z) := by
  intro xs
  induction xs with
  | nil => intro z i hi; simp at hi; subst hi; simp
  | cons x xs ih =>
    intro z i hi
    cases i with
    | zero => simp
    | succ i =>
      simp only [List.scanl_cons, List.take_succ_cons, List.foldl_cons]
      simpa using ih (f z x) i (by simpa using hi)

/-- C10: for every operation `op`, seed `z` and finite list `s` with `n` elements `xs`,
`Scanl<op, z, s>` is the finite list of the `n + 1` running left folds: its `0`-th element
is `z` and its `i`-th element, for `i ≤ n`, is the left fold of `op` from `z` over the
first `i` elements of `xs`; `Scanl<add, 0, [1, 2, 3]>` is `[0, 1, 3, 6]`. -/
theorem Scanl_spec (env : Env) (o : Nat) (z s : Ty) (xs : List Ty) (h : IsFinite env s xs) :
    IsFinite env (Scanl o z s) (List.scanl (env.op o) z xs) ∧
    (List.scanl (env.op o) z xs).length = xs.length + 1 ∧
    (List.scanl (env.op o) z xs)[0]? = some z ∧
    (∀ i, i ≤ xs.length →
      (List.scanl (env.op o) z xs)[i]? = some ((xs.take i).foldl (env.op o) z)) ∧
    ToTuple exampleEnv 10
        (Scanl 0 (.ValueTag 0) (FromTuple (.TTuple [.ValueTag 1, .ValueTag 2, .ValueTag 3])))
      = some (.ok (.TTuple [.ValueTag 0, .ValueTag 1, .ValueTag 3, .ValueTag 6])) := by
  refine ⟨IsFinite_Scanl o xs s z h, List.length_scanl _ _, ?_, getElem?_scanl_foldl _ xs z, rfl⟩
  simp

theorem Scanl_spec_witness :
    IsFinite exampleEnv (FromTuple (.TTuple [.ValueTag 1, .ValueTag 2, .ValueTag 3]))
      [.ValueTag 1, .ValueTag 2, .ValueTag 3] ∧
    IsFinite exampleEnv
      (Scanl 0 (.ValueTag 0) (FromTuple (.TTuple [.ValueTag 1, .ValueTag 2, .ValueTag 3])))
      [.ValueTag 0, .ValueTag 1, .ValueTag 3, .ValueTag 6] :=
  ⟨IsFinite_FromTuple _ _,
    (Scanl_spec exampleEnv 0 (.ValueTag 0) _ [.ValueTag 1, .ValueTag 2, .ValueTag 3]
      (IsFinite_FromTuple _ _)).1⟩

/-! ### C9 -/

theorem detail.FoldlHelper_succ (env : Env) (n : Nat) (TL : Ty) :
    detail.FoldlHelper env (n + 1) TL =
      match view env n TL with
      | none => none
      | some (.seq h tl) =>
        match view env n tl with
        | none => none
        | some s =>
          match TypeSequence s with
          | .yes => detail.FoldlHelper env n tl
          | .no => some (.ok h)
          | .err => some .illFormed
      | some _ => some .illFormed := rfl

theorem detail.FoldlHelper_mono (env : Env) : ∀ (f f' : Nat) (t : Ty) (o : Outcome Ty),
    f ≤ f' → detail.FoldlHelper env f t = some o → detail.FoldlHelper env f' t = some o := by
  intro f
  induction f with
  | zero => intro f' t o _ h; simp [detail.FoldlHelper] at h
  | succ f ih =>
    intro f' t o hle h
    obtain ⟨g, rfl⟩ : ∃ g, f' = g + 1 := ⟨f' - 1, by omega⟩
    have hfg : f ≤ g := by omega
    rw [detail.FoldlHelper_succ] at h ⊢
    cases hv : view env f t with
    | none => simp [hv] at h
    | some sh =>
      rw [hv] at h
      rw [view_mono env f g hfg _ _ hv]
      cases sh with
      | seq hd tl =>
        simp only at h ⊢
        cases hv' : view env f tl with
        | none => simp [hv'] at h
        | some sh' =>
          rw [hv'] at h
          rw [view_mono env f g hfg _ _ hv']
          simp only at h ⊢
          cases hts : TypeSequence sh' <;> simp only [hts] at h ⊢
          · exact ih g _ _ hfg h
          · exact h
          · exact h
      | _ => exact h

/-- On a non-empty finite list `FoldlHelper` terminates with its last element. -/
theorem FoldlHelper_last {env : Env} : ∀ (ys : List Ty) (t y : Ty),
    IsFinite env t ys → ys.getLast? = some y →
    ∃ fuel, detail.FoldlHelper env fuel t = some (.ok y) := by
  intro ys
  induction ys with
  | nil => intro t y _ hy; simp at hy
  | cons a ys ih =>
    intro t y hf hy
    obtain ⟨tl, hv, hf'⟩ := IsFinite_cons_inv hf
    cases ys with
    | nil =>
      simp at hy
      subst hy
      obtain ⟨n, hn, hn'⟩ := hv.both (IsFinite_nil_inv hf')
      exact ⟨n + 1, by simp [detail.FoldlHelper_succ, hn, hn', TypeSequence]⟩
    | cons b ys =>
      obtain ⟨tl', hv', _⟩ := IsFinite_cons_inv hf'
      obtain ⟨m, hm⟩ := ih tl y hf' (by simpa [List.getLast?_cons_cons] using hy)
      obtain ⟨n, hn, hn'⟩ := hv.both hv'
      have a1 := view_mono env n (max n m) (le_max_left _ _) _ _ hn
      have a2 := view_mono env n (max n m) (le_max_left _ _) _ _ hn'
      have a3 := detail.FoldlHelper_mono env m (max n m) _ _ (le_max_right _ _) hm
      exact ⟨max n m + 1, by simp [detail.FoldlHelper_succ, a1, a2, a3, TypeSequence]⟩

theorem getLast?_scanl {α β : Type} (f : β → α → β) : ∀ (xs : List α) (z : β),
    (List.scanl f z xs).getLast? = some (xs.foldl f z) := by
  intro xs
  induction xs with
  | nil => intro z; simp
  | cons x xs ih =>
    intro z
    have := ih (f z x)
    cases hs : List.scanl f (f z x) xs with
    | nil => simp [hs] at this
    | cons a as =>
      rw [hs] at this
      simp only [List.scanl_cons, hs, List.foldl_cons, List.getLast?_cons_cons]
      exact this

theorem foldl_add_ValueTag (op : Ty → Ty → Ty)
    (hop : ∀ a b, op (.ValueTag a) (.ValueTag b) = .ValueTag (a + b)) :
    ∀ (vs : List Int) (z : Int),
    (vs.map Ty.ValueTag).foldl op (.ValueTag z) = .ValueTag (z + vs.sum) := by
  intro vs
  induction vs with
  | nil => intro z; simp
  | cons v vs ih =>
    intro z
    simp only [List.map_cons, List.foldl_cons, hop, ih, List.sum_cons]
    rw [add_assoc]

theorem Foldl_eq_foldl {env : Env} (o : Nat) (z s : Ty) (xs : List Ty)
    (h : IsFinite env s xs) :
    ∃ fuel, Foldl env fuel o z s = some (.ok (xs.foldl (env.op o) z)) :=
  FoldlHelper_last _ _ _ (IsFinite_Scanl o xs s z h) (getLast?_scanl _ xs z)

/-- C9: for every operation `op`, seed `z` and finite list `s` with elements `xs`,
`Foldl<op, z, s>` (the last element of `Scanl<op, z, s>`) terminates with the left fold
`op(...op(op(z, x_0), x_1)..., x_{n-1})`; on an `Empty` list it is `z`; when `op` adds the
values of two `ValueTag`s, `Foldl<op, ValueTag<0>, s>` over `ValueTag`s is the `ValueTag`
of the sum of their values, which is `10` for `[1, 2, 3, 4]`. -/
theorem Foldl_spec (env : Env) (o : Nat) (z : Ty) :
    (∀ s xs, IsFinite env s xs →
      ∃ fuel, Foldl env fuel o z s = some (.ok (xs.foldl (env.op o) z))) ∧
    (∀ s, Views env s .empty → ∃ fuel, Foldl env fuel o z s = some (.ok z)) ∧
    (∀ s (vs : List Int),
      (∀ a b, env.op o (.ValueTag a) (.ValueTag b) = .ValueTag (a + b)) →
      IsFinite env s (vs.map Ty.ValueTag) →
      ∃ fuel, Foldl env fuel o (.ValueTag 0) s = some (.ok (.ValueTag vs.sum))) ∧
    Foldl exampleEnv 10 0 (.ValueTag 0)
        (FromTuple (.TTuple [.ValueTag 1, .ValueTag 2, .ValueTag 3, .ValueTag 4]))
      = some (.ok (.ValueTag 10)) := by
  refine ⟨fun s xs h => Foldl_eq_foldl o z s xs h,
    fun s h => Foldl_eq_foldl o z s [] (IsFinite_nil h), ?_, rfl⟩
  intro s vs hop h
  obtain ⟨fuel, hfuel⟩ := Foldl_eq_foldl o (.ValueTag 0) s _ h
  refine ⟨fuel, ?_⟩
  rw [hfuel, foldl_add_ValueTag _ hop vs 0, zero_add]

theorem Foldl_spec_witness :
    IsFinite exampleEnv (FromTuple (.TTuple [.ValueTag 1, .ValueTag 2]))
      ([1, 2].map Ty.ValueTag) ∧
    (∃ fuel, Foldl exampleEnv fuel 0 (.ValueTag 0) (FromTuple (.TTuple [.ValueTag 1, .ValueTag 2]))
      = some (.ok (.ValueTag ([1, 2] : List Int).sum))) :=
  ⟨IsFinite_FromTuple _ _,
    (Foldl_spec exampleEnv 0 (.ValueTag 0)).2.2.1 _ [1, 2] (fun _ _ => rfl)
      (IsFinite_FromTuple _ _)⟩

/-! ### C13 -/

theorem Views_NatsHelper (env : Env) (N : Int) : Views env (.NatsHelper N) (viewNatsHelper N) :=
  ⟨1, rfl⟩

theorem Views_NatsHelper_seq (env : Env) (N : Int) (h : N < INT_MAX) :
    Views env (.NatsHelper N) (.seq (.ValueTag N) (.NatsHelper (N + 1))) := by
  have := Views_NatsHelper env N
  have hlt : ¬ N + 1 > INT_MAX := by omega
  simpa [viewNatsHelper, hlt] using this

theorem Views_NatsHelper_error (env : Env) (N : Int) (h : INT_MAX ≤ N) :
    Views env (.NatsHelper N) .error := by
  have := Views_NatsHelper env N
  have hlt : N + 1 > INT_MAX := by omega
  simpa [viewNatsHelper, hlt] using this

/-- A run of `n` steps from `NatsHelper<N>` ends at `NatsHelper<N + n>`, as long as the
values stay below `INT_MAX`. -/
theorem Emits_NatsHelper (env : Env) : ∀ (n : Nat) (N : Int), N + n ≤ INT_MAX →
    ∃ xs, xs.length = n ∧ Emits env (.NatsHelper N) xs (.NatsHelper (N + n)) := by
  intro n
  induction n with
  | zero => intro N _; exact ⟨[], rfl, by simp [Emits]⟩
  | succ n ih =>
    intro N h
    push_cast at h
    obtain ⟨xs, hl, he⟩ := ih (N + 1) (by omega)
    refine ⟨.ValueTag N :: xs, by simp [hl], ⟨_, Views_NatsHelper_seq env N (by omega), ?_⟩⟩
    have e : N + 1 + (n : Int) = N + ((n + 1 : Nat) : Int) := by push_cast; ring
    rw [e] at he
    exact he

theorem ElemAt_NatsHelper (env : Env) : ∀ (n : Nat) (N : Int), N + n < INT_MAX →
    ElemAt env (.NatsHelper N) n (.ValueTag (N + n)) := by
  intro n
  induction n with
  | zero =>
    intro N h
    simp only [Nat.cast_zero, add_zero] at h ⊢
    exact ⟨_, Views_NatsHelper_seq env N h⟩
  | succ n ih =>
    intro N h
    push_cast at h
    have := ih (N + 1) (by omega)
    have e : N + 1 + (n : Int) = N + ((n + 1 : Nat) : Int) := by push_cast; ring
    rw [e] at this
    exact ⟨_, _, Views_NatsHelper_seq env N (by omega), this⟩

/-- Every list reached from `NatsHelper<N>` is again a `NatsHelper`. -/
theorem Emits_NatsHelper_rest (env : Env) : ∀ (ys : List Ty) (N : Int) (rest : Ty),
    Emits env (.NatsHelper N) ys rest → ∃ M, rest = .NatsHelper M := by
  intro ys
  induction ys with
  | nil => intro N rest h; exact ⟨N, h.symm⟩
  | cons y ys ih =>
    intro N rest h
    obtain ⟨tl, hv, he⟩ := h
    have hd := hv.det (Views_NatsHelper env N)
    unfold viewNatsHelper at hd
    split_ifs at hd
    injection hd with _ e2
    subst e2
    exact ih _ _ he

theorem not_Views_NatsHelper_empty (env : Env) (N : Int) : ¬ Views env (.NatsHelper N) .empty := by
  intro h
  have hd := h.det (Views_NatsHelper env N)
  unfold viewNatsHelper at hd
  split_ifs at hd

/-- C13 (counterexample): position `2147483647` of `Nats` has no element.  The list reached
after `2147483647` steps is `NatsHelper<2147483647>`, whose member
`Tail = NatsHelper<N + 1>` overflows `int`, so its instantiation is ill-formed. -/
theorem Nats_no_element_at_INT_MAX :
    ¬ ElemAt exampleEnv Nats 2147483647 (.ValueTag 2147483647) := by
  intro h
  obtain ⟨xs, rest, tl, hl, he, hv⟩ := ElemAt_Emits _ _ _ h
  obtain ⟨ys, hl', he'⟩ := Emits_NatsHelper exampleEnv 2147483647 0 (by decide)
  obtain ⟨_, e⟩ := Emits_det xs ys _ _ _ he he' (by rw [hl, hl'])
  subst e
  have herr := Views_NatsHelper_error exampleEnv (0 + ((2147483647 : Nat) : Int)) (by decide)
  exact Shape.noConfusion (hv.det herr)

/-- C13 (amended): for every `n` below `INT_MAX = 2147483647` the `n`-th element (0-based)
of `Nats` is `ValueTag<n>`; no list reached from `Nats` is `Empty`; and the first five
elements are `[0, 1, 2, 3, 4]`. -/
theorem Nats_spec (env : Env) :
    (∀ n : Nat, (n : Int) < INT_MAX → ElemAt env Nats n (.ValueTag n)) ∧
    (∀ ys rest, Emits env Nats ys rest → ¬ Views env rest .empty) ∧
    ToTuple env 10 (.Take 5 Nats)
      = some (.ok (.TTuple [.ValueTag 0, .ValueTag 1, .ValueTag 2, .ValueTag 3, .ValueTag 4])) := by
  refine ⟨?_, ?_, rfl⟩
  · intro n h
    have := ElemAt_NatsHelper env n 0 (by omega)
    simpa [Nats] using this
  · intro ys rest he hv
    obtain ⟨M, rfl⟩ := Emits_NatsHelper_rest env ys 0 rest he
    exact not_Views_NatsHelper_empty env M hv

theorem Nats_spec_witness :
    ((3 : Nat) : Int) < INT_MAX ∧ ElemAt exampleEnv Nats 3 (.ValueTag ((3 : Nat) : Int)) :=
  ⟨by decide, (Nats_spec exampleEnv).1 3 (by decide)⟩

/-! ### C12 -/

theorem Views_FibHelper (env : Env) (a b : Int) : Views env (.FibHelper a b) (viewFibHelper a b) :=
  ⟨1, rfl⟩

theorem Views_FibHelper_seq (env : Env) (a b : Int) (h1 : a + b ≤ INT_MAX)
    (h2 : INT_MIN ≤ a + b) :
    Views env (.FibHelper a b) (.seq (.ValueTag a) (.FibHelper b (a + b))) := by
  have := Views_FibHelper env a b
  have hlt : ¬ (a + b > INT_MAX ∨ a + b < INT_MIN) := by omega
  simpa [viewFibHelper, hlt] using this

theorem ElemAt_FibHelper (env : Env) : ∀ (n a : Nat), (Nat.fib (a + n + 2) : Int) ≤ INT_MAX →
    ElemAt env (.FibHelper (Nat.fib a) (Nat.fib (a + 1))) n (.ValueTag (Nat.fib (a + n))) := by
  intro n
  induction n with
  | zero =>
    intro a h
    have hsum : (Nat.fib a : Int) + Nat.fib (a + 1) = Nat.fib (a + 2) := by
      rw [Nat.fib_add_two]; push_cast; ring
    have hmin : INT_MIN ≤ (Nat.fib a : Int) + Nat.fib (a + 1) := by
      have : (0 : Int) ≤ (Nat.fib a : Int) + Nat.fib (a + 1) := by positivity
      have hm : INT_MIN ≤ 0 := by decide
      omega
    exact ⟨_, Views_FibHelper_seq env _ _ (by rw [hsum]; simpa using h) hmin⟩
  | succ n ih =>
    intro a h
    have hsum : (Nat.fib a : Int) + Nat.fib (a + 1) = Nat.fib (a + 2) := by
      rw [Nat.fib_add_two]; push_cast; ring
    have hmin : INT_MIN ≤ (Nat.fib a : Int) + Nat.fib (a + 1) := by
      have : (0 : Int) ≤ (Nat.fib a : Int) + Nat.fib (a + 1) := by positivity
      have hm : INT_MIN ≤ 0 := by decide
      omega
    have hmono : Nat.fib (a + 2) ≤ Nat.fib (a + (n + 1) + 2) := Nat.fib_mono (by omega)
    have hle : (Nat.fib a : Int) + Nat.fib (a + 1) ≤ INT_MAX := by
      rw [hsum]
      exact le_trans (by exact_mod_cast hmono) h
    have hv := Views_FibHelper_seq env _ _ hle hmin
    rw [hsum] at hv
    have hrec := ih (a + 1) (by rw [show a + 1 + n + 2 = a + (n + 1) + 2 by omega]; exact h)
    rw [show a + 1 + n = a + (n + 1) by omega] at hrec
    exact ⟨_, _, hv, hrec⟩

/-- Every list reached from a `FibHelper` is again a `FibHelper`. -/
theorem Emits_FibHelper_rest (env : Env) : ∀ (ys : List Ty) (a b : Int) (rest : Ty),
    Emits env (.FibHelper a b) ys rest → ∃ c d, rest = .FibHelper c d := by
  intro ys
  induction ys with
  | nil => intro a b rest h; exact ⟨a, b, h.symm⟩
  | cons y ys ih =>
    intro a b rest h
    obtain ⟨tl, hv, he⟩ := h
    have hd := hv.det (Views_FibHelper env a b)
    unfold viewFibHelper at hd
    split_ifs at hd
    injection hd with _ e2
    subst e2
    exact ih _ _ _ he

theorem not_Views_FibHelper_empty (env : Env) (a b : Int) :
    ¬ Views env (.FibHelper a b) .empty := by
  intro h
  have hd := h.det (Views_FibHelper env a b)
  unfold viewFibHelper at hd
  split_ifs at hd

/-- The bound of `Fib` on a 32-bit `int`: `F(46) = 1836311903` is the largest sum that
fits, so positions `0` to `44` have elements, and `FibHelper<F(45), F(46)>`, the list at
position `45`, is ill-formed because its `Tail` needs `F(47)`. -/
theorem Fib_int_range :
    (Nat.fib 46 : Int) ≤ INT_MAX ∧ INT_MAX < (Nat.fib 47 : Int) ∧
    Views exampleEnv (.FibHelper (Nat.fib 45) (Nat.fib 46)) .error := by
  refine ⟨by decide, by decide, ?_⟩
  have := Views_FibHelper exampleEnv (Nat.fib 45) (Nat.fib 46)
  have hlt : ((Nat.fib 45 : Int) + Nat.fib 46 > INT_MAX ∨ (Nat.fib 45 : Int) + Nat.fib 46 < INT_MIN) :=
    Or.inl (by decide)
  simpa [viewFibHelper, hlt] using this

/-- A run of `n` steps from `FibHelper<F(a), F(a + 1)>` ends at
`FibHelper<F(a + n), F(a + n + 1)>`, as long as the sums formed fit in `int`. -/
theorem Emits_FibHelper (env : Env) : ∀ (n a : Nat), (Nat.fib (a + n + 1) : Int) ≤ INT_MAX →
    ∃ xs, xs.length = n ∧
      Emits env (.FibHelper (Nat.fib a) (Nat.fib (a + 1))) xs
        (.FibHelper (Nat.fib (a + n)) (Nat.fib (a + n + 1))) := by
  intro n
  induction n with
  | zero => intro a _; exact ⟨[], rfl, rfl⟩
  | succ n ih =>
    intro a h
    have hsum : (Nat.fib a : Int) + Nat.fib (a + 1) = Nat.fib (a + 2) := by
      rw [Nat.fib_add_two]; push_cast; ring
    have hmin : INT_MIN ≤ (Nat.fib a : Int) + Nat.fib (a + 1) := by
      have : (0 : Int) ≤ (Nat.fib a : Int) + Nat.fib (a + 1) := by positivity
      have hm : INT_MIN ≤ 0 := by decide
      omega
    have hmono : Nat.fib (a + 2) ≤ Nat.fib (a + (n + 1) + 1) := Nat.fib_mono (by omega)
    have hle : (Nat.fib a : Int) + Nat.fib (a + 1) ≤ INT_MAX := by
      rw [hsum]
      exact le_trans (by exact_mod_cast hmono) h
    have hv := Views_FibHelper_seq env _ _ hle hmin
    rw [hsum] at hv
    obtain ⟨xs, hl, he⟩ := ih (a + 1)
      (by rw [show a + 1 + n + 1 = a + (n + 1) + 1 by omega]; exact h)
    rw [show a + 1 + n = a + (n + 1) by omega] at he
    exact ⟨_ :: xs, by simp [hl], ⟨_, hv, he⟩⟩

/-- C12 (counterexample): position `45` of `Fib` has no element, although `F(45)` fits in
`int`.  The list reached after `45` steps is `FibHelper<F(45), F(46)>`, whose member
`Tail = FibHelper<RHS, LHS + RHS>` needs `F(47) = 2971215073`, which overflows `int`: its
instantiation is ill-formed. -/
theorem Fib_no_element_at_45 :
    (Nat.fib 45 : Int) ≤ INT_MAX ∧ ¬ ∃ x, ElemAt exampleEnv Fib 45 x := by
  refine ⟨by decide, ?_⟩
  rintro ⟨x, h⟩
  obtain ⟨xs, rest, tl, hl, he, hv⟩ := ElemAt_Emits _ _ _ h
  obtain ⟨ys, hl', he'⟩ := Emits_FibHelper exampleEnv 45 0 (by decide)
  have he'' : Emits exampleEnv Fib ys (.FibHelper (Nat.fib 45) (Nat.fib 46)) := by
    simpa [Fib] using he'
  obtain ⟨_, e⟩ := Emits_det xs ys _ _ _ he he'' (by rw [hl, hl'])
  subst e
  exact Shape.noConfusion (hv.det Fib_int_range.2.2)

/-- C12 (amended): for every `n` from `0` to `44`, the positions at which the sum
`LHS + RHS = F(n + 2)` formed for the `Tail` fits in `int`, the `n`-th element (0-based)
of `Fib` is `ValueTag<F(n)>` for the Fibonacci numbers `F(0) = 0`, `F(1) = 1`,
`F(n + 2) = F(n) + F(n + 1)`; no list reached from `Fib` is `Empty`; and the first six
elements are `[0, 1, 1, 2, 3, 5]`. -/
theorem Fib_spec (env : Env) :
    (∀ n : Nat, n ≤ 44 → ElemAt env Fib n (.ValueTag (Nat.fib n))) ∧
    (Nat.fib 0 = 0 ∧ Nat.fib 1 = 1 ∧ ∀ n, Nat.fib (n + 2) = Nat.fib n + Nat.fib (n + 1)) ∧
    (∀ ys rest, Emits env Fib ys rest → ¬ Views env rest .empty) ∧
    ToTuple env 10 (.Take 6 Fib)
      = some (.ok (.TTuple [.ValueTag 0, .ValueTag 1, .ValueTag 1, .ValueTag 2, .ValueTag 3,
          .ValueTag 5])) := by
  refine ⟨?_, ⟨Nat.fib_zero, Nat.fib_one, fun n => Nat.fib_add_two⟩, ?_, rfl⟩
  · intro n h
    have hmono : Nat.fib (n + 2) ≤ Nat.fib 46 := Nat.fib_mono (by omega)
    have h46 : (Nat.fib 46 : Int) ≤ INT_MAX := by decide
    have hle : (Nat.fib (0 + n + 2) : Int) ≤ INT_MAX := by
      rw [Nat.zero_add]
      exact le_trans (by exact_mod_cast hmono) h46
    have := ElemAt_FibHelper env n 0 hle
    simpa [Fib] using this
  · intro ys rest he hv
    obtain ⟨c, d, rfl⟩ := Emits_FibHelper_rest env ys 0 1 rest he
    exact not_Views_FibHelper_empty env c d hv

theorem Fib_spec_witness :
    (10 : Nat) ≤ 44 ∧ ElemAt exampleEnv Fib 10 (.ValueTag (Nat.fib 10)) :=
  ⟨by decide, (Fib_spec exampleEnv).1 10 (by decide)⟩

/-! ### C18 -/

theorem Views_Iterate (env : Env) (f : Nat) (T : Ty) :
    Views env (.Iterate f T) (.seq T (.Iterate f (env.mapper f T))) := ⟨1, rfl⟩

theorem ElemAt_Iterate (env : Env) (f : Nat) : ∀ (n : Nat) (x : Ty),
    ElemAt env (.Iterate f x) n ((env.mapper f)^[n] x) := by
  intro n
  induction n with
  | zero => intro x; exact ⟨_, Views_Iterate env f x⟩
  | succ n ih =>
    intro x
    rw [Function.iterate_succ_apply]
    exact ⟨_, _, Views_Iterate env f x, ih (env.mapper f x)⟩

/-- C18: for every function `f`, seed `x` and `n`, the `n`-th element (0-based) of
`Iterate<f, x>` is `f` applied `n` times to `x`, and no list reached from `Iterate<f, x>`
is `Empty`. -/
theorem Iterate_spec (env : Env) (f : Nat) (x : Ty) :
    (∀ n : Nat, ElemAt env (.Iterate f x) n ((env.mapper f)^[n] x)) ∧
    (∀ ys rest, Emits env (.Iterate f x) ys rest → ¬ Views env rest .empty) :=
  ⟨fun n => ElemAt_Iterate env f n x,
    never_empty_of_ElemAt (fun i => ⟨_, ElemAt_Iterate env f i x⟩)⟩

/-! ### C19 -/

theorem Views_Replicate (env : Env) (N : Nat) (T : Ty) :
    Views env (.Replicate N T) (viewReplicate N T) := ⟨1, rfl⟩

theorem IsFinite_Replicate (env : Env) (v : Ty) : ∀ N : Nat,
    IsFinite env (.Replicate N v) (List.replicate N v) := by
  intro N
  induction N with
  | zero => exact IsFinite_nil (by simpa [viewReplicate] using Views_Replicate env 0 v)
  | succ N ih =>
    have := Views_Replicate env (N + 1) v
    simp only [viewReplicate, Nat.succ_ne_zero, if_false, Nat.add_sub_cancel] at this
    exact IsFinite_cons this ih

/-- C19: for every value `v` and count `N`, `Replicate<N, v>` is a finite list of exactly
`N` elements, each equal to `v`; `Replicate<0, v>` is `Empty`. -/
theorem Replicate_spec (env : Env) (N : Nat) (v : Ty) :
    IsFinite env (.Replicate N v) (List.replicate N v) ∧
    (List.replicate N v).length = N ∧
    (∀ x, x ∈ List.replicate N v → x = v) ∧
    Views env (.Replicate 0 v) .empty :=
  ⟨IsFinite_Replicate env v N, List.length_replicate _ _,
    fun _ hx => List.eq_of_mem_replicate hx,
    by simpa [viewReplicate] using Views_Replicate env 0 v⟩

/-! ### C17 -/

theorem Views_MapHelper_seq {env : Env} {TL h tl : Ty} {f : Nat} {s : Shape}
    (h1 : Views env TL (.seq h tl)) (h3 : Views env tl s) (h4 : TypeList s = .yes) :
    Views env (.MapHelper f TL) (.seq (env.mapper f h) (.MapHelper f tl)) := by
  obtain ⟨n, hn1, hn3⟩ := h1.both h3
  exact ⟨n + 1, by simp [view_succ, viewStep, viewMapHelper, named, hn1, hn3, h4]⟩

theorem Views_MapHelper_empty {env : Env} {TL : Ty} {f : Nat} (h1 : Views env TL .empty) :
    Views env (.MapHelper f TL) .empty := by
  obtain ⟨n, hn1⟩ := h1
  exact ⟨n + 1, by simp [view_succ, viewStep, viewMapHelper, hn1]⟩

theorem IsFinite_Map {env : Env} (f : Nat) : ∀ (xs : List Ty) (s : Ty),
    IsFinite env s xs → IsFinite env (Map f s) (xs.map (env.mapper f)) := by
  intro xs
  induction xs with
  | nil => intro s h; exact IsFinite_nil (Views_MapHelper_empty (IsFinite_nil_inv h))
  | cons x xs ih =>
    intro s h
    obtain ⟨tl, hv, hf⟩ := IsFinite_cons_inv h
    obtain ⟨sh, h3, h4⟩ := hf.isList
    exact IsFinite_cons (Views_MapHelper_seq hv h3 h4) (ih tl hf)

/-- An infinite list is a `TypeList`: its instantiation exposes a `TypeSequence`. -/
theorem IsInfinite_isList {env : Env} {t : Ty} (h : IsInfinite env t) :
    ∃ s, Views env t s ∧ TypeList s = .yes := by
  obtain ⟨x, tl, hv, _⟩ := IsInfinite_inv h
  exact ⟨_, hv, rfl⟩

/-- A run of an infinite list is mapped element by element. -/
theorem Emits_Map_of_IsInfinite {env : Env} (f : Nat) : ∀ (xs : List Ty) (s rest : Ty),
    IsInfinite env s → Emits env s xs rest →
    Emits env (Map f s) (xs.map (env.mapper f)) (Map f rest) := by
  intro xs
  induction xs with
  | nil => intro s rest _ he; have : s = rest := he; subst this; rfl
  | cons x xs ih =>
    intro s rest hinf he
    obtain ⟨tl, hv, he'⟩ := he
    obtain ⟨x', tl', hv', hinf'⟩ := IsInfinite_inv hinf
    have e := hv.det hv'
    injection e with e1 e2
    subst e1; subst e2
    obtain ⟨sh, h3, h4⟩ := IsInfinite_isList hinf'
    exact ⟨_, Views_MapHelper_seq hv h3 h4, ih tl rest hinf' he'⟩

theorem IsInfinite_Map {env : Env} (f : Nat) (s : Ty) (h : IsInfinite env s) :
    IsInfinite env (Map f s) := by
  intro n
  obtain ⟨xs, rest, hl, he⟩ := h n
  exact ⟨_, _, by simp [hl], Emits_Map_of_IsInfinite f xs s rest h he⟩

/-- The list at the end of a run of an infinite list is infinite. -/
theorem IsInfinite_of_Emits {env : Env} : ∀ (xs : List Ty) (s rest : Ty),
    IsInfinite env s → Emits env s xs rest → IsInfinite env rest := by
  intro xs
  induction xs with
  | nil => intro s rest h he; have : s = rest := he; subst this; exact h
  | cons x xs ih =>
    intro s rest hinf he
    obtain ⟨tl, hv, he'⟩ := he
    obtain ⟨x', tl', hv', hinf'⟩ := IsInfinite_inv hinf
    have e := hv.det hv'
    injection e with e1 e2
    subst e2
    exact ih tl rest hinf' he'

theorem ElemAt_Map_of_IsInfinite {env : Env} (f : Nat) : ∀ (i : Nat) (s x : Ty),
    IsInfinite env s → ElemAt env s i x → ElemAt env (Map f s) i (env.mapper f x) := by
  intro i
  induction i with
  | zero =>
    intro s x hinf he
    obtain ⟨tl, hv⟩ := he
    obtain ⟨x', tl', hv', hinf'⟩ := IsInfinite_inv hinf
    have e := hv.det hv'
    injection e with e1 e2
    subst e1; subst e2
    obtain ⟨sh, h3, h4⟩ := IsInfinite_isList hinf'
    exact ⟨_, Views_MapHelper_seq hv h3 h4⟩
  | succ i ih =>
    intro s x hinf he
    obtain ⟨y, tl, hv, he'⟩ := he
    obtain ⟨x', tl', hv', hinf'⟩ := IsInfinite_inv hinf
    have e := hv.det hv'
    injection e with e1 e2
    subst e1; subst e2
    obtain ⟨sh, h3, h4⟩ := IsInfinite_isList hinf'
    exact ⟨_, _, Views_MapHelper_seq hv h3 h4, ih tl x hinf' he'⟩

/-- C17: for every mapper `f` and list `s`, finite or infinite: `Map<f, s>` is `Empty`
exactly when `s` is `Empty`; when `s` is finite with elements `xs`, `Map<f, s>` is the
finite list of the same length whose `i`-th element is `f` of the `i`-th element of `xs`;
when `s` is infinite so is `Map<f, s>`, with `f` of the `i`-th element of `s` at
position `i`; and with the identity mapper `Map<id, s>` has the elements of `s` in the
same order. -/
theorem Map_spec (env : Env) (f : Nat) (s : Ty)
    (hs : (∃ xs, IsFinite env s xs) ∨ IsInfinite env s) :
    (Views env (Map f s) .empty ↔ Views env s .empty) ∧
    (∀ xs, IsFinite env s xs →
      IsFinite env (Map f s) (xs.map (env.mapper f)) ∧
      (xs.map (env.mapper f)).length = xs.length ∧
      ∀ i : Nat, (xs.map (env.mapper f))[i]? = (xs[i]?).map (env.mapper f)) ∧
    (IsInfinite env s →
      IsInfinite env (Map f s) ∧
      ∀ i x, ElemAt env s i x → ElemAt env (Map f s) i (env.mapper f x)) ∧
    ((∀ t, env.mapper f t = t) → ∀ xs, IsFinite env s xs → IsFinite env (Map f s) xs) := by
  refine ⟨⟨?_, Views_MapHelper_empty⟩, ?_, ?_, ?_⟩
  · intro hm
    have hseq : ∀ x tl sh, Views env s (.seq x tl) → Views env tl sh → TypeList sh = .yes →
        Views env s .empty := by
      intro x tl sh hv h3 h4
      exact Shape.noConfusion (hm.det (Views_MapHelper_seq hv h3 h4))
    rcases hs with ⟨xs, hf⟩ | hinf
    · cases xs with
      | nil => exact IsFinite_nil_inv hf
      | cons x xs =>
        obtain ⟨tl, hv, hf'⟩ := IsFinite_cons_inv hf
        obtain ⟨sh, h3, h4⟩ := hf'.isList
        exact hseq _ _ _ hv h3 h4
    · obtain ⟨x, tl, hv, hinf'⟩ := IsInfinite_inv hinf
      obtain ⟨sh, h3, h4⟩ := IsInfinite_isList hinf'
      exact hseq _ _ _ hv h3 h4
  · intro xs hf
    exact ⟨IsFinite_Map f xs s hf, List.length_map _ _, fun i => List.getElem?_map _ _ i⟩
  · intro hinf
    exact ⟨IsInfinite_Map f s hinf, fun i x => ElemAt_Map_of_IsInfinite f i s x hinf⟩
  · intro hid xs hf
    have := IsFinite_Map f xs s hf
    have e : xs.map (env.mapper f) = xs := by
      rw [show env.mapper f = id from funext hid]; exact List.map_id xs
    rw [e] at this
    exact this

theorem Map_spec_witness :
    IsFinite exampleEnv (FromTuple (.TTuple [.Atom 0, .Atom 1])) [.Atom 0, .Atom 1] ∧
    IsFinite exampleEnv (Map 0 (FromTuple (.TTuple [.Atom 0, .Atom 1]))) [.Atom 0, .Atom 1] ∧
    IsInfinite exampleEnv (Map 0 (.Repeat (.Atom 0))) :=
  ⟨IsFinite_FromTuple _ _,
    (Map_spec exampleEnv 0 (FromTuple (.TTuple [.Atom 0, .Atom 1]))
      (Or.inl ⟨_, IsFinite_FromTuple _ _⟩)).2.2.2 (fun _ => rfl) _ (IsFinite_FromTuple _ _),
    ((Map_spec exampleEnv 0 (.Repeat (.Atom 0)) (Or.inr (IsInfinite_Repeat _ _))).2.2.1
      (IsInfinite_Repeat _ _)).1⟩

/-! ### C16 -/

theorem Views_FilterHelper_keep {env : Env} {TL h tl : Ty} {p : Nat} {s : Shape}
    (h1 : Views env TL (.seq h tl)) (hp : env.pred p h = true)
    (h3 : Views env tl s) (h4 : TypeList s = .yes) :
    Views env (.FilterHelper p TL) (.seq h (.FilterHelper p tl)) := by
  obtain ⟨n, hn1, hn3⟩ := h1.both h3
  exact ⟨n + 1, by simp [view_succ, viewStep, viewFilterHelper, named, hn1, hn3, h4, hp]⟩

theorem Views_FilterHelper_skip {env : Env} {TL h tl : Ty} {p : Nat} {s : Shape}
    (h1 : Views env TL (.seq h tl)) (hp : env.pred p h = false)
    (h3 : Views env (.FilterHelper p tl) s) :
    Views env (.FilterHelper p TL) s := by
  obtain ⟨n, hn1, hn3⟩ := h1.both h3
  exact ⟨n + 1, by simp [view_succ, viewStep, viewFilterHelper, hn1, hn3, hp]⟩

theorem Views_FilterHelper_empty {env : Env} {TL : Ty} {p : Nat} (h1 : Views env TL .empty) :
    Views env (.FilterHelper p TL) .empty := by
  obtain ⟨n, hn1⟩ := h1
  exact ⟨n + 1, by simp [view_succ, viewStep, viewFilterHelper, hn1]⟩

theorem IsFinite_Filter {env : Env} (p : Nat) : ∀ (xs : List Ty) (s : Ty),
    IsFinite env s xs → IsFinite env (Filter p s) (xs.filter (env.pred p)) := by
  intro xs
  induction xs with
  | nil => intro s h; exact IsFinite_nil (Views_FilterHelper_empty (IsFinite_nil_inv h))
  | cons x xs ih =>
    intro s h
    obtain ⟨tl, hv, hf⟩ := IsFinite_cons_inv h
    cases hp : env.pred p x with
    | true =>
      obtain ⟨sh, h3, h4⟩ := hf.isList
      rw [List.filter_cons_of_pos hp]
      exact IsFinite_cons (Views_FilterHelper_keep hv hp h3 h4) (ih tl hf)
    | false =>
      rw [List.filter_cons_of_neg (by simp [hp])]
      exact IsFinite_of_views (fun he => Views_FilterHelper_skip hv hp he)
        (fun _ _ hs => Views_FilterHelper_skip hv hp hs) (ih tl hf)

/-- C16: for every predicate `pred` and finite list `s` with elements `xs`,
`Filter<pred, s>` terminates and is the finite list of exactly the elements of `xs` on
which `pred` is true, in their order and with their multiplicity; it is `Empty` when no
element satisfies `pred`; and with a predicate that is always true it has the elements
of `s`. -/
theorem Filter_spec (env : Env) (p : Nat) (s : Ty) (xs : List Ty) (h : IsFinite env s xs) :
    IsFinite env (Filter p s) (xs.filter (env.pred p)) ∧
    (∀ x, x ∈ xs.filter (env.pred p) ↔ x ∈ xs ∧ env.pred p x = true) ∧
    (xs.filter (env.pred p)).Sublist xs ∧
    ((∀ x, x ∈ xs → env.pred p x = false) → Views env (Filter p s) .empty) ∧
    ((∀ t, env.pred p t = true) → IsFinite env (Filter p s) xs) := by
  have hmain := IsFinite_Filter p xs s h
  refine ⟨hmain, fun x => List.mem_filter, List.filter_sublist xs, ?_, ?_⟩
  · intro hnone
    have e : xs.filter (env.pred p) = [] := List.filter_eq_nil_iff.mpr (by
      intro a ha; simp [hnone a ha])
    rw [e] at hmain
    exact IsFinite_nil_inv hmain
  · intro hall
    have e : xs.filter (env.pred p) = xs := List.filter_eq_self.mpr (fun a _ => hall a)
    rw [e] at hmain
    exact hmain

theorem Filter_spec_witness :
    IsFinite exampleEnv (FromTuple (.TTuple [.Atom 0, .Atom 1])) [.Atom 0, .Atom 1] ∧
    IsFinite exampleEnv (Filter 0 (FromTuple (.TTuple [.Atom 0, .Atom 1]))) [.Atom 0, .Atom 1] :=
  ⟨IsFinite_FromTuple _ _,
    (Filter_spec exampleEnv 0 _ [.Atom 0, .Atom 1] (IsFinite_FromTuple _ _)).2.2.2.2
      (fun _ => rfl)⟩

/-- `Filter` with a predicate that holds on the `ValueTag`s of even value keeps `2` and
`4` of `[1, 2, 3, 4]`, and is `Empty` on `[1, 3]`. -/
theorem Filter_even_example :
    ToTuple ⟨fun _ t => t, fun _ t => match t with | .ValueTag v => v % 2 == 0 | _ => false,
        fun _ a _ => a⟩ 20
      (Filter 0 (FromTuple (.TTuple [.ValueTag 1, .ValueTag 2, .ValueTag 3, .ValueTag 4])))
      = some (.ok (.TTuple [.ValueTag 2, .ValueTag 4])) ∧
    view ⟨fun _ t => t, fun _ t => match t with | .ValueTag v => v % 2 == 0 | _ => false,
        fun _ a _ => a⟩ 20
      (Filter 0 (FromTuple (.TTuple [.ValueTag 1, .ValueTag 3]))) = some .empty :=
  ⟨rfl, rfl⟩

/-! ### C14 -/

theorem Views_Append_seq {env : Env} {TL T h tl : Ty} {s : Shape}
    (h1 : Views env TL (.seq h tl)) (h3 : Views env tl s) (h4 : TypeList s = .yes) :
    Views env (.Append TL T) (.seq h (.Append tl T)) := by
  obtain ⟨n, hn1, hn3⟩ := h1.both h3
  exact ⟨n + 1, by simp [view_succ, viewStep, viewAppend, named, hn1, hn3, h4]⟩

theorem Views_Append_empty {env : Env} {TL T : Ty} (h1 : Views env TL .empty) :
    Views env (.Append TL T) (.seq T .Nil) := by
  obtain ⟨n, hn1⟩ := h1
  exact ⟨n + 1, by simp [view_succ, viewStep, viewAppend, hn1]⟩

theorem IsFinite_Append {env : Env} (x : Ty) : ∀ (ys : List Ty) (t : Ty),
    IsFinite env t ys → IsFinite env (.Append t x) (ys ++ [x]) := by
  intro ys
  induction ys with
  | nil =>
    intro t h
    exact IsFinite_cons (Views_Append_empty (IsFinite_nil_inv h)) (IsFinite_nil (Views_Nil env))
  | cons y ys ih =>
    intro t h
    obtain ⟨tl, hv, hf⟩ := IsFinite_cons_inv h
    obtain ⟨sh, h3, h4⟩ := hf.isList
    exact IsFinite_cons (Views_Append_seq hv h3 h4) (ih tl hf)

theorem IsFinite_foldl_Append {env : Env} : ∀ (ys ps : List Ty) (L : Ty),
    IsFinite env L ps → IsFinite env (ys.foldl Ty.Append L) (ps ++ ys) := by
  intro ys
  induction ys with
  | nil => intro ps L h; simpa using h
  | cons y ys ih =>
    intro ps L h
    have := ih (ps ++ [y]) (.Append L y) (IsFinite_Append y ps L h)
    simpa using this

theorem Views_InitsHelper_seq {env : Env} {L R h tl : Ty} {l s1 s2 : Shape}
    (hL : Views env L l) (hl : TypeList l = .yes) (hR : Views env R (.seq h tl))
    (h1 : Views env (.Append L h) s1) (h1' : TypeList s1 = .yes)
    (h2 : Views env tl s2) (h2' : TypeList s2 = .yes) :
    Views env (.InitsHelper L R) (.seq L (.InitsHelper (.Append L h) tl)) := by
  obtain ⟨n, hn1, hn2⟩ := hL.both hR
  obtain ⟨m, hm1, hm2⟩ := h1.both h2
  have a1 := view_mono env n (max n m) (le_max_left _ _) _ _ hn1
  have a2 := view_mono env n (max n m) (le_max_left _ _) _ _ hn2
  have a3 := view_mono env m (max n m) (le_max_right _ _) _ _ hm1
  have a4 := view_mono env m (max n m) (le_max_right _ _) _ _ hm2
  exact ⟨max n m + 1,
    by simp [view_succ, viewStep, viewInitsHelper, named, a1, a2, a3, a4, hl, h1', h2']⟩

theorem Views_InitsHelper_empty {env : Env} {L R : Ty} {l : Shape}
    (hL : Views env L l) (hl : TypeList l = .yes) (hR : Views env R .empty) :
    Views env (.InitsHelper L R) (.seq L .Nil) := by
  obtain ⟨n, hn1, hn2⟩ := hL.both hR
  exact ⟨n + 1, by simp [view_succ, viewStep, viewInitsHelper, hn1, hn2, hl]⟩

theorem IsFinite_InitsHelper {env : Env} : ∀ (xs ps : List Ty) (L R : Ty),
    IsFinite env L ps → IsFinite env R xs →
    IsFinite env (.InitsHelper L R) (List.scanl Ty.Append L xs) := by
  intro xs
  induction xs with
  | nil =>
    intro ps L R hL hR
    obtain ⟨l, hl, hl'⟩ := hL.isList
    exact IsFinite_cons (Views_InitsHelper_empty hl hl' (IsFinite_nil_inv hR))
      (IsFinite_nil (Views_Nil env))
  | cons x xs ih =>
    intro ps L R hL hR
    obtain ⟨l, hl, hl'⟩ := hL.isList
    obtain ⟨tl, hv, hf⟩ := IsFinite_cons_inv hR
    have hA := IsFinite_Append x ps L hL
    obtain ⟨s1, h1, h1'⟩ := hA.isList
    obtain ⟨s2, h2, h2'⟩ := hf.isList
    exact IsFinite_cons (Views_InitsHelper_seq hl hl' hv h1 h1' h2 h2')
      (ih (ps ++ [x]) (.Append L x) tl hA hf)

/-- C14: for every finite list `s` with `n` elements `xs`, `Inits<s>` is a finite list of
exactly `n + 1` elements, and for every `i ≤ n` its `i`-th element is a type list whose
elements are the first `i` elements of `xs` (the `0`-th is `Nil`, the empty prefix, and
the last has all the elements of `s`); `Inits` of `[1, 2]` is `[[], [1], [1, 2]]`. -/
theorem Inits_spec (env : Env) (s : Ty) (xs : List Ty) (h : IsFinite env s xs) :
    IsFinite env (Inits s) (List.scanl Ty.Append .Nil xs) ∧
    (List.scanl Ty.Append .Nil xs).length = xs.length + 1 ∧
    (∀ i, i ≤ xs.length →
      (List.scanl Ty.Append .Nil xs)[i]? = some ((xs.take i).foldl Ty.Append .Nil) ∧
      IsFinite env ((xs.take i).foldl Ty.Append .Nil) (xs.take i)) ∧
    (List.scanl Ty.Append .Nil xs)[0]? = some .Nil ∧
    IsFinite env (xs.foldl Ty.Append .Nil) xs ∧
    (ToTuple env 10 (Inits (FromTuple (.TTuple [.ValueTag 1, .ValueTag 2])))
        = some (.ok (.TTuple [.Nil, .Append .Nil (.ValueTag 1),
            .Append (.Append .Nil (.ValueTag 1)) (.ValueTag 2)])) ∧
      ToTuple env 10 .Nil = some (.ok (.TTuple [])) ∧
      ToTuple env 10 (.Append .Nil (.ValueTag 1)) = some (.ok (.TTuple [.ValueTag 1])) ∧
      ToTuple env 10 (.Append (.Append .Nil (.ValueTag 1)) (.ValueTag 2))
        = some (.ok (.TTuple [.ValueTag 1, .ValueTag 2]))) := by
  have hpre : ∀ ys : List Ty, IsFinite env (ys.foldl Ty.Append .Nil) ys := by
    intro ys
    have := IsFinite_foldl_Append ys [] .Nil (IsFinite_nil (Views_Nil env))
    simpa using this
  refine ⟨IsFinite_InitsHelper xs [] .Nil s (IsFinite_nil (Views_Nil env)) h,
    List.length_scanl _ _, ?_, ?_, hpre xs, rfl, rfl, rfl, rfl⟩
  · intro i hi
    exact ⟨getElem?_scanl_foldl Ty.Append xs Ty.Nil i hi, hpre _⟩
  · simp

theorem Inits_spec_witness :
    IsFinite exampleEnv (FromTuple (.TTuple [.Atom 0, .Atom 1])) [.Atom 0, .Atom 1] ∧
    IsFinite exampleEnv (Inits (FromTuple (.TTuple [.Atom 0, .Atom 1])))
      [.Nil, .Append .Nil (.Atom 0), .Append (.Append .Nil (.Atom 0)) (.Atom 1)] :=
  ⟨IsFinite_FromTuple _ _,
    (Inits_spec exampleEnv _ [.Atom 0, .Atom 1] (IsFinite_FromTuple _ _)).1⟩

/-! ### C15 -/

theorem Views_TailsHelper_seq {env : Env} {TL h tl : Ty} {s : Shape}
    (h1 : Views env TL (.seq h tl)) (h3 : Views env tl s) (h4 : TypeList s = .yes) :
    Views env (.TailsHelper TL) (.seq TL (.TailsHelper tl)) := by
  obtain ⟨n, hn1, hn3⟩ := h1.both h3
  exact ⟨n + 1, by simp [view_succ, viewStep, viewTailsHelper, named, hn1, hn3, h4]⟩

theorem Views_TailsHelper_empty {env : Env} {TL : Ty} (h1 : Views env TL .empty) :
    Views env (.TailsHelper TL) (.seq .Nil .Nil) := by
  obtain ⟨n, hn1⟩ := h1
  exact ⟨n + 1, by simp [view_succ, viewStep, viewTailsHelper, hn1]⟩

theorem IsFinite_Tails {env : Env} : ∀ (xs : List Ty) (s : Ty), IsFinite env s xs →
    ∃ es, IsFinite env (Tails s) es ∧ es.length = xs.length + 1 ∧
      (∀ i, i ≤ xs.length → ∃ e, es[i]? = some e ∧ IsFinite env e (xs.drop i)) ∧
      (xs ≠ [] → es[0]? = some s) := by
  intro xs
  induction xs with
  | nil =>
    intro s h
    refine ⟨[.Nil], IsFinite_cons (Views_TailsHelper_empty (IsFinite_nil_inv h))
      (IsFinite_nil (Views_Nil env)), rfl, ?_, fun hne => absurd rfl hne⟩
    intro i hi
    have : i = 0 := by simpa using hi
    subst this
    exact ⟨.Nil, rfl, IsFinite_nil (Views_Nil env)⟩
  | cons x xs ih =>
    intro s h
    obtain ⟨tl, hv, hf⟩ := IsFinite_cons_inv h
    obtain ⟨sh, h3, h4⟩ := hf.isList
    obtain ⟨es, hes, hlen, helem, _⟩ := ih tl hf
    refine ⟨s :: es, IsFinite_cons (Views_TailsHelper_seq hv h3 h4) hes, by simp [hlen], ?_,
      fun _ => by simp⟩
    intro i hi
    cases i with
    | zero => exact ⟨s, by simp, h⟩
    | succ i =>
      obtain ⟨e, he, hfe⟩ := helem i (by simpa using hi)
      exact ⟨e, by simpa using he, by simpa using hfe⟩

/-- C15: for every finite list `s` with `n` elements `xs`, `Tails<s>` is a finite list of
exactly `n + 1` elements (after them it is `Empty`), and for every `i ≤ n` its `i`-th
element is a type list whose elements are `xs` without its first `i` elements (the `0`-th
is `s` itself when `s` has elements, the last is an `Empty` list);
`Tails` of `[1, 2]` is `[[1, 2], [2], []]`. -/
theorem Tails_spec (env : Env) (s : Ty) (xs : List Ty) (h : IsFinite env s xs) :
    (∃ es, IsFinite env (Tails s) es ∧ es.length = xs.length + 1 ∧
      (∀ i, i ≤ xs.length → ∃ e, es[i]? = some e ∧ IsFinite env e (xs.drop i)) ∧
      (xs ≠ [] → es[0]? = some s)) ∧
    (ToTuple env 10 (Tails (FromTuple (.TTuple [.ValueTag 1, .ValueTag 2])))
        = some (.ok (.TTuple [.FromTupleHelper (.TTuple [.ValueTag 1, .ValueTag 2]),
            .FromTupleHelper (.TTuple [.ValueTag 2]), .Nil])) ∧
      ToTuple env 10 (.FromTupleHelper (.TTuple [.ValueTag 1, .ValueTag 2]))
        = some (.ok (.TTuple [.ValueTag 1, .ValueTag 2])) ∧
      ToTuple env 10 (.FromTupleHelper (.TTuple [.ValueTag 2]))
        = some (.ok (.TTuple [.ValueTag 2])) ∧
      ToTuple env 10 .Nil = some (.ok (.TTuple []))) :=
  ⟨IsFinite_Tails xs s h, rfl, rfl, rfl, rfl⟩

theorem Tails_spec_witness :
    IsFinite exampleEnv (FromTuple (.TTuple [.Atom 0, .Atom 1])) [.Atom 0, .Atom 1] ∧
    ∃ es, IsFinite exampleEnv (Tails (FromTuple (.TTuple [.Atom 0, .Atom 1]))) es ∧
      es.length = 3 :=
  ⟨IsFinite_FromTuple _ _,
    let ⟨es, h1, h2, _⟩ :=
      (Tails_spec exampleEnv _ [.Atom 0, .Atom 1] (IsFinite_FromTuple _ _)).1
    ⟨es, h1, h2⟩⟩

/-! ### C11 -/

theorem tmod_natCast_eq_zero_iff (n i : Nat) : Int.tmod (n : Int) (i : Int) = 0 ↔ i ∣ n := by
  rw [← Int.ofNat_tmod]
  constructor
  · intro h
    exact Nat.dvd_of_mod_eq_zero (by exact_mod_cast h)
  · intro h
    exact_mod_cast Nat.mod_eq_zero_of_dvd h

/-- Trial division is exact below `46340 * 46340`: from a divisor candidate `i` below
which `n` has no divisor, the loop of `IsPrime` terminates and decides whether `n` is prime. -/
theorem IsPrimeLoop_correct (n : Nat) (hb : n < 46340 * 46340) :
    ∀ (m i : Nat), 2 ≤ i → i ≤ 46340 → (∀ j, 2 ≤ j → j < i → ¬ j ∣ n) → 2 ≤ n →
    n + 1 ≤ i + m →
    IsPrimeLoop (n : Int) (m + 1) (i : Int) = some (.ok (decide (Nat.Prime n))) := by
  intro m
  induction m with
  | zero =>
    intro i hi2 hi hinv hn2 hm
    -- then `n < i`, so `i * i > n` and the loop exits at once
    unfold IsPrimeLoop
    have hsq : i * i ≤ 46340 * 46340 := Nat.mul_le_mul hi hi
    have h1 : ¬ ((i : Int) * i > INT_MAX) := by
      have : ((i * i : Nat) : Int) ≤ ((46340 * 46340 : Nat) : Int) := by exact_mod_cast hsq
      have hmax : ((46340 * 46340 : Nat) : Int) ≤ INT_MAX := by decide
      push_cast at this hmax ⊢
      omega
    have h2 : ¬ ((i : Int) * i ≤ (n : Int)) := by
      have : n < i * i := by nlinarith
      intro hle
      have : i * i ≤ n := by exact_mod_cast hle
      omega
    simp only [h1, h2, if_false]
    have hp : Nat.Prime n := by
      rw [Nat.prime_def_le_sqrt]
      refine ⟨hn2, fun j hj2 hjs => hinv j hj2 ?_⟩
      have := Nat.sqrt_le_self n
      omega
    simp [hp]
  | succ m ih =>
    intro i hi2 hi hinv hn2 hm
    unfold IsPrimeLoop
    have hsq : i * i ≤ 46340 * 46340 := Nat.mul_le_mul hi hi
    have h1 : ¬ ((i : Int) * i > INT_MAX) := by
      have : ((i * i : Nat) : Int) ≤ ((46340 * 46340 : Nat) : Int) := by exact_mod_cast hsq
      have hmax : ((46340 * 46340 : Nat) : Int) ≤ INT_MAX := by decide
      push_cast at this hmax ⊢
      omega
    simp only [h1, if_false]
    by_cases h2 : i * i ≤ n
    · have h2' : (i : Int) * i ≤ (n : Int) := by exact_mod_cast h2
      simp only [h2', if_true]
      by_cases hd : i ∣ n
      · have hd' : Int.tmod (n : Int) (i : Int) = 0 := (tmod_natCast_eq_zero_iff n i).mpr hd
        simp only [hd', if_true]
        have hlt : i < n := by nlinarith
        have hnp : ¬ Nat.Prime n := by
          intro hp
          rcases (Nat.dvd_prime hp).mp hd with h | h <;> omega
        simp [hnp]
      · have hd' : ¬ Int.tmod (n : Int) (i : Int) = 0 := fun h =>
          hd ((tmod_natCast_eq_zero_iff n i).mp h)
        simp only [hd', if_false]
        have hi' : i + 1 ≤ 46340 := by
          by_contra hcon
          have : 46340 ≤ i := by omega
          have : 46340 * 46340 ≤ i * i := Nat.mul_le_mul this this
          omega
        have hinv' : ∀ j, 2 ≤ j → j < i + 1 → ¬ j ∣ n := by
          intro j hj2 hj
          rcases Nat.lt_succ_iff_lt_or_eq.mp hj with h | h
          · exact hinv j hj2 h
          · rw [h]; exact hd
        have := ih (i + 1) (by omega) hi' hinv' hn2 (by omega)
        push_cast at this
        exact this
    · have h2' : ¬ ((i : Int) * i ≤ (n : Int)) := by
        intro hle
        exact h2 (by exact_mod_cast hle)
      simp only [h2', if_false]
      have hp : Nat.Prime n := by
        rw [Nat.prime_def_le_sqrt]
        refine ⟨hn2, fun j hj2 hjs => hinv j hj2 ?_⟩
        have hs : j * j ≤ n := by
          have := Nat.sqrt_le n
          calc j * j ≤ Nat.sqrt n * Nat.sqrt n := Nat.mul_le_mul hjs hjs
            _ ≤ n := this
        by_contra hcon
        have : i ≤ j := by omega
        have : i * i ≤ j * j := Nat.mul_le_mul this this
        omega
      simp [hp]

theorem IsPrime_correct (n : Nat) (hn2 : 2 ≤ n) (hb : n < 46340 * 46340) :
    IsPrime (n + 1) (n : Int) = some (.ok (decide (Nat.Prime n))) := by
  have := IsPrimeLoop_correct n hb n 2 (le_refl _) (by norm_num)
    (fun j hj2 hj => by omega) hn2 (by omega)
  simpa [IsPrime] using this

/-- The loop of `PrimeAt` started at `num` with `i` equal to the number of primes below
`num` terminates with the `k`-th prime `p`, when `p` is below `46340 * 46340`. -/
theorem PrimeAtLoop_correct (k : Nat) (hk : 1 ≤ k)
    (hb : Nat.nth Nat.Prime (k - 1) < 46340 * 46340) :
    ∀ (d num : Nat), 2 ≤ num → num + d = Nat.nth Nat.Prime (k - 1) + 1 →
    ∃ fuel, PrimeAtLoop (k : Int) fuel (num : Int) (Nat.count Nat.Prime num : Int)
      = some (.ok ((Nat.nth Nat.Prime (k - 1) : Nat) : Int)) := by
  have hpp : Nat.Prime (Nat.nth Nat.Prime (k - 1)) := Nat.prime_nth_prime _
  have hcount : Nat.count Nat.Prime (Nat.nth Nat.Prime (k - 1)) = k - 1 :=
    Nat.count_nth_of_infinite Nat.infinite_setOf_prime _
  intro d
  induction d with
  | zero =>
    intro num _ hnum
    have hnum' : num = Nat.nth Nat.Prime (k - 1) + 1 := by omega
    refine ⟨1, ?_⟩
    have hc : Nat.count Nat.Prime num = k := by
      rw [hnum', Nat.count_succ, hcount, if_pos hpp]; omega
    unfold PrimeAtLoop
    have : ¬ ((Nat.count Nat.Prime num : Int) < (k : Int)) := by rw [hc]; exact lt_irrefl _
    simp only [this, if_false]
    rw [hnum']
    push_cast
    simp
  | succ d ih =>
    intro num hnum2 hnum
    have hle : num ≤ Nat.nth Nat.Prime (k - 1) := by omega
    obtain ⟨f, hf⟩ := ih (num + 1) (by omega) (by omega)
    have hc : Nat.count Nat.Prime num < k := by
      have := Nat.count_monotone Nat.Prime hle
      omega
    have hprime := IsPrime_correct num hnum2 (by omega)
    have hprime' : IsPrime (max f (num + 1)) (num : Int)
        = some (.ok (decide (Nat.Prime num))) :=
      IsPrimeLoop_mono _ _ _ _ _ (le_max_right _ _) hprime
    have hrec := PrimeAtLoop_mono _ _ (max f (num + 1)) _ _ _ (le_max_left _ _) hf
    refine ⟨max f (num + 1) + 1, ?_⟩
    unfold PrimeAtLoop
    have h1 : (Nat.count Nat.Prime num : Int) < (k : Int) := by exact_mod_cast hc
    have h2 : ¬ ((num : Int) + 1 > INT_MAX) := by
      have hmax : ((46340 * 46340 : Nat) : Int) ≤ INT_MAX := by decide
      have : ((num : Nat) : Int) < ((46340 * 46340 : Nat) : Int) := by
        exact_mod_cast lt_of_le_of_lt hle hb
      omega
    simp only [h1, if_true, hprime', h2, if_false]
    have hi : (if decide (Nat.Prime num) = true then (Nat.count Nat.Prime num : Int) + 1
        else (Nat.count Nat.Prime num : Int)) = ((Nat.count Nat.Prime (num + 1) : Nat) : Int) := by
      rw [Nat.count_succ]
      by_cases hp : Nat.Prime num <;> simp [hp]
    rw [hi]
    push_cast at hrec ⊢
    exact hrec

theorem PrimeAt_correct (k : Nat) (hk : 1 ≤ k)
    (hb : Nat.nth Nat.Prime (k - 1) < 46340 * 46340) :
    ∃ fuel, PrimeAt fuel (k : Int) = some (.ok ((Nat.nth Nat.Prime (k - 1) : Nat) : Int)) := by
  have h2 : 2 ≤ Nat.nth Nat.Prime (k - 1) := (Nat.prime_nth_prime _).two_le
  obtain ⟨fuel, h⟩ := PrimeAtLoop_correct k hk hb (Nat.nth Nat.Prime (k - 1) + 1 - 2) 2
    (le_refl _) (by omega)
  have hc : Nat.count Nat.Prime 2 = 0 := by decide
  rw [hc] at h
  exact ⟨fuel, by simpa [PrimeAt] using h⟩

theorem Views_PrimeHelper (env : Env) (k : Nat) (hk : 1 ≤ k)
    (hb : Nat.nth Nat.Prime (k - 1) < 46340 * 46340) :
    Views env (.PrimeHelper (k : Int))
      (.seq (.ValueTag ((Nat.nth Nat.Prime (k - 1) : Nat) : Int)) (.PrimeHelper ((k : Int) + 1))) := by
  obtain ⟨fuel, h⟩ := PrimeAt_correct k hk hb
  have hk1 : k + 1 ≤ Nat.nth Nat.Prime (k - 1) := by
    have := Nat.add_two_le_nth_prime (k - 1)
    omega
  have h2 : ¬ ((k : Int) + 1 > INT_MAX) := by
    have hmax : ((46340 * 46340 : Nat) : Int) ≤ INT_MAX := by decide
    have : ((k + 1 : Nat) : Int) < ((46340 * 46340 : Nat) : Int) := by
      exact_mod_cast lt_of_le_of_lt hk1 hb
    push_cast at this
    omega
  exact ⟨fuel + 1, by simp [view_succ, viewStep, viewPrimeHelper, h, h2]⟩

theorem ElemAt_PrimeHelper (env : Env) : ∀ (n a : Nat),
    Nat.nth Nat.Prime (a + n) < 46340 * 46340 →
    ElemAt env (.PrimeHelper ((a + 1 : Nat) : Int)) n
      (.ValueTag ((Nat.nth Nat.Prime (a + n) : Nat) : Int)) := by
  intro n
  induction n with
  | zero =>
    intro a hb
    exact ⟨_, Views_PrimeHelper env (a + 1) (by omega) (by simpa using hb)⟩
  | succ n ih =>
    intro a hb
    have hmono : Nat.nth Nat.Prime a < Nat.nth Nat.Prime (a + (n + 1)) :=
      (Nat.nth_lt_nth Nat.infinite_setOf_prime).mpr (by omega)
    have hv := Views_PrimeHelper env (a + 1) (by omega)
      (by simpa using lt_trans hmono hb)
    have hrec := ih (a + 1) (by rw [show a + 1 + n = a + (n + 1) by omega]; exact hb)
    rw [show a + 1 + n = a + (n + 1) by omega] at hrec
    push_cast at hv hrec ⊢
    exact ⟨_, _, hv, hrec⟩

/-- A result of the loop of `PrimeAt` is below `INT_MAX`. -/
theorem PrimeAtLoop_lt_INT_MAX (idx : Int) : ∀ (fuel : Nat) (num i r : Int),
    num ≤ INT_MAX → PrimeAtLoop idx fuel num i = some (.ok r) → r < INT_MAX := by
  intro fuel
  induction fuel with
  | zero => intro num i r _ h; simp [PrimeAtLoop] at h
  | succ fuel ih =>
    intro num i r hnum h
    unfold PrimeAtLoop at h
    by_cases h1 : i < idx
    · simp only [h1, if_true] at h
      cases hp : IsPrime fuel num with
      | none => simp [hp] at h
      | some b =>
        rw [hp] at h
        cases b with
        | illFormed => simp at h
        | ok b =>
          simp only at h
          by_cases h2 : num + 1 > INT_MAX
          · simp [h2] at h
          · simp only [h2, if_false] at h
            exact ih _ _ _ (by omega) h
    · simp only [h1, if_false] at h
      have : num - 1 = r := by simpa using h
      omega

/-- C11 (counterexample): for `k = 2147483647`, a value of `int`, `PrimeAt(k)` never
returns the `k`-th prime: every result of `PrimeAt` is below `INT_MAX`, and the
`2147483647`-th prime is larger. -/
theorem PrimeAt_INT_MAX_not_kth_prime :
    ¬ ∃ fuel, PrimeAt fuel 2147483647
      = some (.ok ((Nat.nth Nat.Prime (2147483647 - 1) : Nat) : Int)) := by
  rintro ⟨fuel, h⟩
  have hlt := PrimeAtLoop_lt_INT_MAX _ fuel 2 0 _ (by decide) h
  have hge := Nat.add_two_le_nth_prime (2147483647 - 1)
  have hmax : INT_MAX = ((2147483647 : Nat) : Int) := by decide
  rw [hmax] at hlt
  have : Nat.nth Nat.Prime (2147483647 - 1) < 2147483647 := by exact_mod_cast hlt
  omega

/-- C11 (amended): for every `k ≥ 1` whose `k`-th prime `p` (in increasing order) is below
`46340 * 46340 = 2147395600`, the range in which the `int` arithmetic of `IsPrime` and
`PrimeAt` is exact, the computation of `PrimeAt(k)` terminates with `p`, the head of
`PrimeHelper<k>` is `ValueTag<p>`, and `p` is the element of `Primes` at position `k - 1`;
the first five elements of `Primes` are `[2, 3, 5, 7, 11]`. -/
theorem Primes_spec (env : Env) (k : Nat) (hk : 1 ≤ k)
    (hb : Nat.nth Nat.Prime (k - 1) < 46340 * 46340) :
    (∃ fuel, PrimeAt fuel (k : Int) = some (.ok ((Nat.nth Nat.Prime (k - 1) : Nat) : Int))) ∧
    Views env (.PrimeHelper (k : Int))
      (.seq (.ValueTag ((Nat.nth Nat.Prime (k - 1) : Nat) : Int)) (.PrimeHelper ((k : Int) + 1))) ∧
    ElemAt env Primes (k - 1) (.ValueTag ((Nat.nth Nat.Prime (k - 1) : Nat) : Int)) ∧
    ToTuple env 40 (.Take 5 Primes)
      = some (.ok (.TTuple [.ValueTag 2, .ValueTag 3, .ValueTag 5, .ValueTag 7, .ValueTag 11])) := by
  refine ⟨PrimeAt_correct k hk hb, Views_PrimeHelper env k hk hb, ?_, rfl⟩
  have := ElemAt_PrimeHelper env (k - 1) 0 (by simpa using hb)
  simpa [Primes] using this

theorem Primes_spec_witness :
    Nat.nth Nat.Prime (1 - 1) < 46340 * 46340 ∧
    ElemAt exampleEnv Primes (1 - 1) (.ValueTag ((Nat.nth Nat.Prime (1 - 1) : Nat) : Int)) :=
  ⟨by rw [Nat.nth_prime_zero_eq_two]; decide,
    (Primes_spec exampleEnv 1 (le_refl 1) (by rw [Nat.nth_prime_zero_eq_two]; decide)).2.2.1⟩

/-! ### C21 -/

/-- On a composite `n` in the range of `int` the loop of `IsPrime` stops at the least
divisor of `n` and never forms a product that overflows. -/
theorem IsPrimeLoop_composite (n : Nat) (hn2 : 2 ≤ n) (hmax : (n : Int) ≤ INT_MAX)
    (hc : ¬ Nat.Prime n) :
    ∀ (m i : Nat), 2 ≤ i → i ≤ n.minFac → n.minFac ≤ i + m →
    IsPrimeLoop (n : Int) (m + 1) (i : Int) = some (.ok false) := by
  have hsq : n.minFac * n.minFac ≤ n := by
    have := Nat.minFac_sq_le_self (by omega) hc
    rwa [sq] at this
  have hdvd : n.minFac ∣ n := Nat.minFac_dvd n
  intro m
  induction m with
  | zero =>
    intro i hi2 hi hm
    have hieq : i = n.minFac := by omega
    unfold IsPrimeLoop
    have hii : i * i ≤ n := by rw [hieq]; exact hsq
    have h1 : ¬ ((i : Int) * i > INT_MAX) := by
      have : ((i * i : Nat) : Int) ≤ (n : Int) := by exact_mod_cast hii
      push_cast at this
      omega
    have h2 : (i : Int) * i ≤ (n : Int) := by exact_mod_cast hii
    have hd : Int.tmod (n : Int) (i : Int) = 0 :=
      (tmod_natCast_eq_zero_iff n i).mpr (by rw [hieq]; exact hdvd)
    simp only [h1, h2, hd, if_true, if_false]
  | succ m ih =>
    intro i hi2 hi hm
    unfold IsPrimeLoop
    have hii : i * i ≤ n := le_trans (Nat.mul_le_mul hi hi) hsq
    have h1 : ¬ ((i : Int) * i > INT_MAX) := by
      have : ((i * i : Nat) : Int) ≤ (n : Int) := by exact_mod_cast hii
      push_cast at this
      omega
    have h2 : (i : Int) * i ≤ (n : Int) := by exact_mod_cast hii
    simp only [h1, h2, if_true, if_false]
    by_cases hd : i ∣ n
    · have hd' : Int.tmod (n : Int) (i : Int) = 0 := (tmod_natCast_eq_zero_iff n i).mpr hd
      simp only [hd', if_true]
    · have hd' : ¬ Int.tmod (n : Int) (i : Int) = 0 := fun h =>
        hd ((tmod_natCast_eq_zero_iff n i).mp h)
      simp only [hd', if_false]
      have hne : i ≠ n.minFac := fun h => hd (h ▸ hdvd)
      have := ih (i + 1) (by omega) (by omega) (by omega)
      push_cast at this
      exact this

/-- On a prime `n` from `46340 * 46340` on, the loop of `IsPrime` reaches `i = 46341`,
whose square does not fit in `int`. -/
theorem IsPrimeLoop_overflow (n : Nat) (hp : Nat.Prime n) (hlo : 46340 * 46340 ≤ n) :
    ∀ (m i : Nat), 2 ≤ i → i + m = 46341 →
    IsPrimeLoop (n : Int) (m + 1) (i : Int) = some .illFormed := by
  intro m
  induction m with
  | zero =>
    intro i _ hi
    have hieq : i = 46341 := by omega
    subst hieq
    unfold IsPrimeLoop
    have h1 : ((46341 : Nat) : Int) * ((46341 : Nat) : Int) > INT_MAX := by decide
    simp only [h1, if_true]
  | succ m ih =>
    intro i hi2 hi
    have hile : i ≤ 46340 := by omega
    unfold IsPrimeLoop
    have hii : i * i ≤ n := le_trans (Nat.mul_le_mul hile hile) hlo
    have h1 : ¬ ((i : Int) * i > INT_MAX) := by
      have : ((i * i : Nat) : Int) ≤ ((46340 * 46340 : Nat) : Int) := by
        exact_mod_cast Nat.mul_le_mul hile hile
      have hmax : ((46340 * 46340 : Nat) : Int) ≤ INT_MAX := by decide
      push_cast at this hmax ⊢
      omega
    have h2 : (i : Int) * i ≤ (n : Int) := by exact_mod_cast hii
    have hd : ¬ i ∣ n := by
      intro hdv
      rcases (Nat.dvd_prime hp).mp hdv with h | h
      · omega
      · have : i * i ≤ i := by rw [h] at hii ⊢; exact hii
        nlinarith
    have hd' : ¬ Int.tmod (n : Int) (i : Int) = 0 := fun h =>
      hd ((tmod_natCast_eq_zero_iff n i).mp h)
    simp only [h1, h2, hd', if_true, if_false]
    have := ih (i + 1) (by omega) (by omega)
    push_cast at this
    exact this

/-- C21 (amended): for every integer `n ≥ 2` in the range of `int` that is below
`46340 * 46340 = 2147395600` or composite, the inputs on which the products `i * i` formed
by the loop fit in `int`, `IsPrime(n)` terminates (fuel `n + 1` is enough) and returns
`true` if and only if `n` is a prime number. -/
theorem IsPrime_spec (n : Nat) (h2 : 2 ≤ n) (hmax : (n : Int) ≤ INT_MAX)
    (hexact : n < 46340 * 46340 ∨ ¬ Nat.Prime n) :
    ∃ b, IsPrime (n + 1) (n : Int) = some (.ok b) ∧ (b = true ↔ Nat.Prime n) := by
  rcases hexact with hb | hc
  · exact ⟨decide (Nat.Prime n), IsPrime_correct n h2 hb, by simp⟩
  · refine ⟨false, ?_, by simp [hc]⟩
    have hmf2 : 2 ≤ n.minFac := (Nat.minFac_prime (by omega)).two_le
    have hmfle : n.minFac ≤ n := Nat.minFac_le (by omega)
    have := IsPrimeLoop_composite n h2 hmax hc (n.minFac - 2) 2 (le_refl _) hmf2 (by omega)
    exact IsPrimeLoop_mono _ _ _ _ _ (by omega) this

theorem IsPrime_spec_witness :
    ((2 : Nat) ≤ 91 ∧ ((91 : Nat) : Int) ≤ INT_MAX ∧ (91 < 46340 * 46340 ∨ ¬ Nat.Prime 91)) ∧
    ∃ b, IsPrime (91 + 1) ((91 : Nat) : Int) = some (.ok b) ∧ (b = true ↔ Nat.Prime 91) :=
  ⟨⟨by decide, by decide, Or.inl (by decide)⟩,
    IsPrime_spec 91 (by decide) (by decide) (Or.inl (by decide))⟩

/-- The boundary of exactness: on a prime `n` with `46340 * 46340 ≤ n` the evaluation of
`IsPrime(n)` overflows in `i * i` and is not a constant expression. -/
theorem IsPrime_overflow (n : Nat) (hp : Nat.Prime n) (hlo : 46340 * 46340 ≤ n) :
    IsPrime 46340 (n : Int) = some .illFormed := by
  have := IsPrimeLoop_overflow n hp hlo 46339 2 (le_refl _) (by norm_num)
  simpa [IsPrime] using this

theorem IsPrime_small_values :
    IsPrime 10 2 = some (.ok true) ∧ IsPrime 10 3 = some (.ok true) ∧
    IsPrime 10 4 = some (.ok false) ∧ IsPrime 10 9 = some (.ok false) ∧
    IsPrime 10 25 = some (.ok false) ∧ IsPrime 10 29 = some (.ok true) :=
  ⟨rfl, rfl, rfl, rfl, rfl, rfl⟩

theorem noDivisorIn_sound (n : Nat) : ∀ (d lo : Nat), noDivisorIn n d lo = true →
    ∀ i, lo ≤ i → i < lo + 2 ^ d → ¬ i ∣ n := by
  intro d
  induction d with
  | zero =>
    intro lo h i hlo hhi hdvd
    have hi : i = lo := by simp at hhi; omega
    subst hi
    have hmod : n % i = 0 := Nat.mod_eq_zero_of_dvd hdvd
    simp [noDivisorIn, hmod] at h
  | succ d ih =>
    intro lo h i hlo hhi
    simp only [noDivisorIn, Bool.and_eq_true] at h
    by_cases hi : i < lo + 2 ^ d
    · exact ih lo h.1 i hlo hi
    · refine ih (lo + 2 ^ d) h.2 i (by omega) ?_
      have : 2 ^ (d + 1) = 2 ^ d + 2 ^ d := by ring
      omega

/-- The largest `int`, `2147483647 = 2 ^ 31 - 1`, is a prime number. -/
theorem prime_2147483647 : Nat.Prime 2147483647 := by
  have hcheck : noDivisorIn 2147483647 16 2 = true := by decide
  rw [Nat.prime_def_le_sqrt]
  refine ⟨by norm_num, fun m hm2 hms => ?_⟩
  have hsq : m * m ≤ 2147483647 :=
    le_trans (Nat.mul_le_mul hms hms) (Nat.sqrt_le 2147483647)
  have hm : m < 2 + 2 ^ 16 := by
    by_contra hcon
    have h1 : 2 + 2 ^ 16 ≤ m := by omega
    have h2 : (2 + 2 ^ 16) * (2 + 2 ^ 16) ≤ m * m := Nat.mul_le_mul h1 h1
    have h3 : (2147483647 : Nat) < (2 + 2 ^ 16) * (2 + 2 ^ 16) := by norm_num
    omega
  exact noDivisorIn_sound 2147483647 16 2 hcheck m hm2 hm

/-- C21 (counterexample): `n = 2147483647`, the largest `int`, is prime, and `IsPrime(n)`
never returns `true`: the divisors `2, ..., 46340` do not divide `n`, and for `i = 46341`
the product `i * i = 2147488281` overflows `int`, so the evaluation is not a constant
expression. -/
theorem IsPrime_INT_MAX_not_true :
    Nat.Prime 2147483647 ∧
    IsPrime 46340 2147483647 = some .illFormed ∧
    ¬ ∃ fuel, IsPrime fuel 2147483647 = some (.ok true) := by
  have hov : IsPrime 46340 2147483647 = some .illFormed := by
    have := IsPrime_overflow 2147483647 prime_2147483647 (by norm_num)
    simpa using this
  refine ⟨prime_2147483647, hov, ?_⟩
  rintro ⟨fuel, h⟩
  have h1 := IsPrimeLoop_mono _ _ (max fuel 46340) _ _ (le_max_left _ _) h
  have h2 := IsPrimeLoop_mono _ _ (max fuel 46340) _ _ (le_max_right _ _) hov
  rw [h1] at h2
  exact Outcome.noConfusion (Option.some.inj h2)

/-! ### C22 -/

theorem ElemAt_Repeat (env : Env) (v : Ty) : ∀ i : Nat, ElemAt env (.Repeat v) i v := by
  intro i
  induction i with
  | zero => exact ⟨_, Views_Repeat env v⟩
  | succ i ih => exact ⟨_, _, Views_Repeat env v, ih⟩

theorem IsFinite_Take_Repeat (env : Env) (v : Ty) : ∀ n : Nat,
    IsFinite env (.Take n (.Repeat v)) (List.replicate n v) := by
  intro n
  induction n with
  | zero => exact IsFinite_nil (Views_Take_zero (Views_Repeat env v))
  | succ n ih =>
    exact IsFinite_cons (Views_Take_seq (Views_Repeat env v) (Nat.succ_pos n)) ih

/-- Every list reached from `Repeat<v>` is `Repeat<v>` and every element emitted is `v`. -/
theorem Emits_Repeat_inv (env : Env) (v : Ty) : ∀ (ys : List Ty) (rest : Ty),
    Emits env (.Repeat v) ys rest → rest = .Repeat v ∧ ∀ y, y ∈ ys → y = v := by
  intro ys
  induction ys with
  | nil => intro rest h; exact ⟨h.symm, by simp⟩
  | cons y ys ih =>
    intro rest h
    obtain ⟨tl, hv, he⟩ := h
    have hd := hv.det (Views_Repeat env v)
    injection hd with e1 e2
    subst e1; subst e2
    obtain ⟨hr, hall⟩ := ih rest he
    exact ⟨hr, by simpa using hall⟩

/-- C22: for every value `v` and every `n`, `Take<n, Repeat<v>>` and `Replicate<n, v>` are
finite lists with the same elements, exactly `n` copies of `v`; `Repeat<v>` has `v` at
every position, every element it emits is `v`, and no list reached from it is `Empty`. -/
theorem Take_Repeat_spec (env : Env) (n : Nat) (v : Ty) :
    IsFinite env (.Take n (.Repeat v)) (List.replicate n v) ∧
    IsFinite env (.Replicate n v) (List.replicate n v) ∧
    (List.replicate n v).length = n ∧
    ToTuple env 10 (.Take 3 (.Repeat v)) = ToTuple env 10 (.Replicate 3 v) ∧
    ToTuple env 10 (.Take 3 (.Repeat v)) = some (.ok (.TTuple [v, v, v])) ∧
    (∀ i : Nat, ElemAt env (.Repeat v) i v) ∧
    (∀ ys rest, Emits env (.Repeat v) ys rest →
      (∀ y, y ∈ ys → y = v) ∧ ¬ Views env rest .empty) := by
  refine ⟨IsFinite_Take_Repeat env v n, IsFinite_Replicate env v n, List.length_replicate _ _,
    rfl, rfl, ElemAt_Repeat env v, ?_⟩
  intro ys rest he
  obtain ⟨hr, hall⟩ := Emits_Repeat_inv env v ys rest he
  refine ⟨hall, ?_⟩
  rw [hr]
  intro hv
  exact Shape.noConfusion (hv.det (Views_Repeat env v))

end type_lists

namespace polymapper

/-! ### C20 -/

theorem map_eq_some_iff {Obj Kind Target : Type} (dynamic_cast : Kind → Obj → Bool)
    (base : Obj) : ∀ (ms : List (Mapping Kind Target)) (t : Target),
    PolymorphicMapper.map dynamic_cast ms base = some t ↔
      ∃ pre m post, ms = pre ++ m :: post ∧ (∀ x, x ∈ pre → dynamic_cast x.Base base = false) ∧
        dynamic_cast m.Base base = true ∧ m.Target = t := by
  intro ms
  induction ms with
  | nil => intro t; simp [PolymorphicMapper.map]
  | cons a ms ih =>
    intro t
    cases ha : dynamic_cast a.Base base with
    | true =>
      simp only [PolymorphicMapper.map, ha, if_true, Option.some.injEq]
      constructor
      · intro h
        exact ⟨[], a, ms, rfl, by simp, ha, h⟩
      · rintro ⟨pre, m, post, hms, hpre, hm, ht⟩
        cases pre with
        | nil =>
          simp only [List.nil_append, List.cons.injEq] at hms
          rw [hms.1]; exact ht
        | cons b pre =>
          simp only [List.cons_append, List.cons.injEq] at hms
          have := hpre b (by simp)
          rw [← hms.1, ha] at this
          exact absurd this (by simp)
    | false =>
      simp only [PolymorphicMapper.map, ha, Bool.false_eq_true, if_false]
      rw [ih t]
      constructor
      · rintro ⟨pre, m, post, hms, hpre, hm, ht⟩
        refine ⟨a :: pre, m, post, by simp [hms], ?_, hm, ht⟩
        intro x hx
        rcases List.mem_cons.mp hx with rfl | hx
        · exact ha
        · exact hpre x hx
      · rintro ⟨pre, m, post, hms, hpre, hm, ht⟩
        cases pre with
        | nil =>
          simp only [List.nil_append, List.cons.injEq] at hms
          rw [← hms.1, ha] at hm
          exact absurd hm (by simp)
        | cons b pre =>
          simp only [List.cons_append, List.cons.injEq] at hms
          exact ⟨pre, m, post, hms.2, fun x hx => hpre x (by simp [hx]), hm, ht⟩

theorem map_eq_none_iff {Obj Kind Target : Type} (dynamic_cast : Kind → Obj → Bool)
    (base : Obj) : ∀ (ms : List (Mapping Kind Target)),
    PolymorphicMapper.map dynamic_cast ms base = none ↔
      ∀ m, m ∈ ms → dynamic_cast m.Base base = false := by
  intro ms
  induction ms with
  | nil => simp [PolymorphicMapper.map]
  | cons a ms ih =>
    cases ha : dynamic_cast a.Base base with
    | true =>
      simp only [PolymorphicMapper.map, ha, if_true]
      constructor
      · intro h; exact absurd h (by simp)
      · intro h
        have := h a (by simp)
        rw [ha] at this
        exact absurd this (by simp)
    | false =>
      simp only [PolymorphicMapper.map, ha, Bool.false_eq_true, if_false]
      rw [ih]
      constructor
      · intro h m hm
        rcases List.mem_cons.mp hm with rfl | hm
        · exact ha
        · exact h m hm
      · intro h m hm
        exact h m (by simp [hm])

/-- C20: `PolymorphicMapper::map` is first-match-wins over its ordered mapping list: for
every value `base` and every list of mappings, the result is `some t` exactly when `t` is
the tag of a mapping whose kind `base` is and before which no listed mapping has a kind
that `base` is (a later match is ignored); it is `nullopt` exactly when `base` is none of
the listed kinds; in particular it is `nullopt` for the empty list. -/
theorem PolymorphicMapper_map_spec {Obj Kind Target : Type} (dynamic_cast : Kind → Obj → Bool)
    (ms : List (Mapping Kind Target)) (base : Obj) :
    (∀ t, PolymorphicMapper.map dynamic_cast ms base = some t ↔
      ∃ pre m post, ms = pre ++ m :: post ∧ (∀ x, x ∈ pre → dynamic_cast x.Base base = false) ∧
        dynamic_cast m.Base base = true ∧ m.Target = t) ∧
    (PolymorphicMapper.map dynamic_cast ms base = none ↔
      ∀ m, m ∈ ms → dynamic_cast m.Base base = false) ∧
    PolymorphicMapper.map dynamic_cast ([] : List (Mapping Kind Target)) base = none ∧
    PolymorphicMapper.map dynamic_cast ms base =
      (ms.find? (fun m => dynamic_cast m.Base base)).map (fun m => m.Target) := by
  refine ⟨map_eq_some_iff dynamic_cast base ms, map_eq_none_iff dynamic_cast base ms, rfl, ?_⟩
  induction ms with
  | nil => rfl
  | cons a ms ih =>
    cases ha : dynamic_cast a.Base base <;>
      simp [PolymorphicMapper.map, List.find?_cons, ha, ih]

/-- A value that is of both listed kinds gets the tag of the first one. -/
theorem PolymorphicMapper_map_first_match :
    PolymorphicMapper.map (fun (k : Nat) (base : Nat) => decide (k ∣ base))
      [⟨7, "seven"⟩, ⟨2, "two"⟩, ⟨3, "three"⟩] 6 = some "two" ∧
    PolymorphicMapper.map (fun (k : Nat) (base : Nat) => decide (k ∣ base))
      [⟨7, "seven"⟩, ⟨2, "two"⟩, ⟨3, "three"⟩] 5 = none := by
  decide

end polymapper

namespace slice

/-! ### C23 -/

theorem toSizeT_natCast (k : Nat) (hk : k < SIZE_MOD) : toSizeT (k : Int) = k := by
  unfold toSizeT
  have : ((k : Int) % (SIZE_MOD : Int)) = ((k % SIZE_MOD : Nat) : Int) := by push_cast; rfl
  rw [this, Nat.mod_eq_of_lt hk]
  simp

/-- The size computed by `Skip`: with `n = q * k + r`, `r < k`, it is `q + r`. -/
theorem skip_size_eq (n k : Nat) (hk : 1 ≤ k) (hn : n < SIZE_MOD) :
    (n + SIZE_MOD - ((n / k) * (k - 1)) % SIZE_MOD) % SIZE_MOD = n / k + n % k := by
  obtain ⟨j, rfl⟩ : ∃ j, k = j + 1 := ⟨k - 1, by omega⟩
  have hdm := Nat.div_add_mod n (j + 1)
  generalize n / (j + 1) = q at *
  generalize n % (j + 1) = r at *
  have hmul : (j + 1) * q = q * j + q := by ring
  rw [hmul] at hdm
  simp only [Nat.add_sub_cancel]
  have hx : q * j < SIZE_MOD := by omega
  rw [Nat.mod_eq_of_lt hx]
  have : n + SIZE_MOD - q * j = (q + r) + SIZE_MOD := by omega
  rw [this, Nat.add_mod_right]
  exact Nat.mod_eq_of_lt (by omega)

/-- What `Skip` returns for a skip `k ≥ 1`: same start, stride `st * k`, size
`n / k + n % k`. -/
theorem Skip_eq (s : Slice) (k : Nat) (hk : 1 ≤ k) (hk' : (k : Int) ≤ PTRDIFF_MAX)
    (hn : s.Size < SIZE_MOD) (hst : inPtrdiff (s.Stride * k) = true) :
    s.Skip k = some ⟨s.data_, s.Size / k + s.Size % k, s.Stride * k⟩ := by
  have hkm : k < SIZE_MOD := by
    have : PTRDIFF_MAX < (SIZE_MOD : Int) := by decide
    have : (k : Int) < (SIZE_MOD : Int) := lt_of_le_of_lt hk' this
    exact_mod_cast this
  have h1 : toSizeT (k : Int) = k := toSizeT_natCast k hkm
  have h2 : toSizeT ((k : Int) - 1) = k - 1 := by
    have : ((k : Int) - 1) = ((k - 1 : Nat) : Int) := by omega
    rw [this]
    exact toSizeT_natCast _ (by omega)
  have h3 : inPtrdiff ((k : Int) - 1) = true := by
    have hmin : PTRDIFF_MIN ≤ 0 := by decide
    simp only [inPtrdiff, Bool.and_eq_true, decide_eq_true_eq]
    constructor <;> omega
  unfold Slice.Skip
  rw [h1, h2]
  have hk0 : ¬ k = 0 := by omega
  simp only [hk0, if_false, h3, hst, Bool.not_true, Bool.false_eq_true]
  rw [skip_size_eq _ k hk hn]

/-- Every index of a view of size `n / k + n % k` and step `k` stays below `n` exactly
when the remainder `n % k` is at most `1`. -/
theorem skip_in_bounds_iff (n k : Nat) (hk : 1 ≤ k) :
    (∀ i, i < n / k + n % k → i * k < n) ↔ n % k ≤ 1 := by
  have hdm := Nat.div_add_mod n k
  constructor
  · intro h
    by_contra hcon
    have := h (n / k + 1) (by omega)
    have e : (n / k + 1) * k = k * (n / k) + k := by ring
    have hlt := Nat.mod_lt n (show k > 0 by omega)
    omega
  · intro h i hi
    have hik : i * k ≤ (n / k + n % k - 1) * k := Nat.mul_le_mul_right k (by omega)
    rcases Nat.lt_or_ge 0 (n % k) with hpos | hzero
    · have hr : n % k = 1 := by omega
      rw [hr] at hik hdm
      have e : (n / k + 1 - 1) * k = k * (n / k) := by
        rw [Nat.add_sub_cancel, Nat.mul_comm]
      rw [e] at hik
      omega
    · have hr : n % k = 0 := by omega
      rw [hr] at hik hdm hi
      have hq : 1 ≤ n / k := by omega
      have e : (n / k + 0 - 1) * k + k = k * (n / k) := by
        have : n / k + 0 - 1 + 1 = n / k := by omega
        calc (n / k + 0 - 1) * k + k = (n / k + 0 - 1 + 1) * k := by ring
          _ = k * (n / k) := by rw [this, Nat.mul_comm]
      omega

/-- The number of positions `0, k, 2k, ...` below `n`, `ceil (n / k)`, and the size that
`Skip` computes agree exactly when `n % k ≤ 1`. -/
theorem skip_size_eq_ceil_iff (n k : Nat) (hk : 1 ≤ k) :
    n / k + n % k = (n + k - 1) / k ↔ n % k ≤ 1 := by
  have hdm := Nat.div_add_mod n k
  have hlt := Nat.mod_lt n (show k > 0 by omega)
  have hceil : (n + k - 1) / k = n / k + (if n % k = 0 then 0 else 1) := by
    by_cases hr : n % k = 0
    · simp only [hr, if_true, Nat.add_zero]
      have : n + k - 1 = (k - 1) + k * (n / k) := by omega
      rw [this, Nat.add_mul_div_left _ _ (by omega : 0 < k)]
      rw [Nat.div_eq_of_lt (by omega)]
      omega
    · simp only [hr, if_false]
      have : n + k - 1 = (n % k - 1) + k * (n / k + 1) := by
        have : k * (n / k + 1) = k * (n / k) + k := by ring
        omega
      rw [this, Nat.add_mul_div_left _ _ (by omega : 0 < k)]
      rw [Nat.div_eq_of_lt (by omega)]
      omega
  rw [hceil]
  by_cases hr : n % k = 0
  · simp [hr]
  · simp only [hr, if_false]
    omega

/-- C23 (the code at the failing input): `Skip(3)` on a `Slice` of size `5` and stride
`1` returns a view of size `5 - (5 / 3) * (3 - 1) = 3` and stride `3`.  Its valid index
`2` designates position `6` of the underlying storage, which no index of the original
slice designates (`2 * 3 < 5` is false), and `3` is not `ceil (5 / 3) = 2`. -/
theorem Skip_size_out_of_bounds :
    Slice.Skip ⟨0, 5, 1⟩ 3 = some ⟨0, 3, 3⟩ ∧
    Slice.subscript ⟨0, 3, 3⟩ 2 = some 6 ∧
    (∀ j, Slice.subscript ⟨0, 5, 1⟩ j ≠ some 6) ∧
    ¬ (2 * 3 < 5) ∧
    (5 + 3 - 1) / 3 = 2 := by
  refine ⟨by decide, by decide, ?_, by decide, by decide⟩
  intro j h
  by_cases hj : j < 5
  · interval_cases j <;> exact absurd h (by decide)
  · simp [Slice.subscript, Slice.Size, hj] at h

/-! ### C24 -/

/-- The position reached by `n` applications of `operator++`. -/
theorem inc_iterate_data (it : SliceIterator) : ∀ n : Nat,
    (SliceIterator.inc^[n] it).data_ = it.data_ + n * it.Stride ∧
      (SliceIterator.inc^[n] it).stride_ = it.stride_ := by
  intro n
  induction n with
  | zero => simp
  | succ n ih =>
    rw [Function.iterate_succ_apply']
    obtain ⟨h1, h2⟩ := ih
    constructor
    · simp only [SliceIterator.inc, SliceIterator.Stride, h1, h2]
      push_cast
      ring
    · simp only [SliceIterator.inc, h2]

/-- `it + n` is the iterator reached by applying `operator++` `n` times; it designates the
element `n * st` positions from `it`. -/
theorem add_eq_iterate_inc (it : SliceIterator) (n : Nat)
    (h : inPtrdiff ((n : Int) * it.Stride) = true) :
    it.add n = some (SliceIterator.inc^[n] it) ∧
      (SliceIterator.inc^[n] it).deref = it.data_ + n * it.Stride := by
  obtain ⟨h1, h2⟩ := inc_iterate_data it n
  refine ⟨?_, h1⟩
  simp only [SliceIterator.add, SliceIterator.addAssign, h, if_true, Option.some.injEq]
  cases hit : SliceIterator.inc^[n] it with
  | mk d st =>
    rw [hit] at h1 h2
    simp only at h1 h2
    rw [h1, h2]

/-- `it[n]` and `*(it + n)` designate the same element only for `n = 0` or stride `1`. -/
theorem subscript_eq_deref_add_iff (it it' : SliceIterator) (n : Int)
    (h : it.add n = some it') : it.subscript n = it'.deref ↔ n = 0 ∨ it.Stride = 1 := by
  simp only [SliceIterator.add, SliceIterator.addAssign] at h
  split_ifs at h
  injection h with h
  subst h
  simp only [SliceIterator.subscript, SliceIterator.deref, add_right_inj]
  constructor
  · intro e
    by_cases hn : n = 0
    · exact Or.inl hn
    · right
      have : n * (it.Stride - 1) = 0 := by linear_combination -e
      rcases mul_eq_zero.mp this with h0 | h1
      · exact absurd h0 hn
      · linarith
  · rintro (h0 | h1)
    · simp [h0]
    · simp [h1]

/-- C24 (the code at the failing input): for the iterator at position `0` with stride `2`
and offset `1`, `it + 1` and `++it` both designate position `2`, the element
`1 * 2` positions from `it`, while `it[1]` evaluates `*(data_ + 1)` and designates
position `1`. -/
theorem subscript_ignores_stride :
    SliceIterator.add ⟨0, 2⟩ 1 = some ⟨2, 2⟩ ∧
    SliceIterator.deref ⟨2, 2⟩ = 2 ∧
    SliceIterator.inc ⟨0, 2⟩ = ⟨2, 2⟩ ∧
    SliceIterator.subscript ⟨0, 2⟩ 1 = 1 ∧
    SliceIterator.subscript ⟨0, 2⟩ 1 ≠ SliceIterator.deref ⟨2, 2⟩ := by
  decide

end slice
